import Mathlib

/-!
# hgo: revision lookup, delta-chain reconstruction and file existence

A shallow embedding of `revlog/lookup.go`, `revlog/filebuilder.go` and
`cmd/hgo/cmdcat.go` (function `LookupFile`), followed by theorems about them.

Conventions of the embedding:

* A Go result pair `(r *Rec, err error)` is a pair `Option Rec × Option Error`
  (`none` is the nil pointer, respectively the nil error).
* The outer `none` of an `Option` around a whole result stands for a run
  without a result: a Go run-time panic (index out of range), or a call whose
  answer neither the sources nor the spec determine (`Index.Tip` on an empty
  Index). Nothing is proved from such a `none`.
* Byte slices are lists of naturals.
* Collaborators whose code is outside the three source files (identifier
  parsing, hashing, the patch package, the raw data reader, the data cache)
  are parameters, bundled in `IdFormat` and `Engine`.
-/

namespace Hgo

/-- A byte slice. -/
abbrev Bytes := List Nat

/-- A content identifier (`revlog.NodeId`, a byte slice). -/
abbrev NodeId := List Nat

/-- Error values. The first two are the variables declared in `lookup.go`;
`ErrRevNotFound` is the distinct variable `NodeIdRevSpec.Lookup` refers to.
The others stand for the `fmt.Errorf` / `errors.New` values built in
`filebuilder.go` and `cmdcat.go`, and `other` for collaborator errors. -/
inductive Error where
  | ErrRevisionNotFound : Error
  | ErrRevisionAmbiguous : Error
  | ErrRevNotFound : Error
  | getData (rev : Int) (cause : Error) : Error
  | lengthMismatch (n : Int) (FileLength : Nat) : Error
  | hashMismatch : Error
  | manifestMismatch : Error
  | other (msg : String) : Error
  deriving DecidableEq, Repr

/-- Modelled from the spec: the index entry of one revision (the struct
`record` embedded in `Rec`), with the fields the data model of the spec lists:
the content identifier, up to two parent references (`none` is Null), the
outer link, the flag marking a full snapshot (base) as opposed to a delta
against the predecessor, and the expected length of the reconstructed
content. -/
structure record where
  Linkrev : Nat
  Base : Bool
  Parent1 : Option Nat
  Parent2 : Option Nat
  FileLength : Nat
  NodeId : Bytes
  deriving DecidableEq, Repr

/-- Modelled from the spec: `revlog.Index`, the ordered sequence of records
plus the contents of the synthetic Null record. -/
structure Index where
  index : List record
  null : record
  deriving DecidableEq, Repr

/-- Modelled from the spec: `revlog.Rec`, a record together with its local
index `i` and the Index it belongs to. -/
structure Rec where
  i : Int
  record : record
  Index : Index
  deriving DecidableEq, Repr

/-- Modelled from the spec: `Index.Record(i)`, the Record at local index `i`
of `0..n-1`. Outside that range the Go code indexes out of range; `lookup.go`
checks the range before each call. -/
def Index.Record (rv : Index) (i : Int) : Option Rec :=
  if i < 0 then none
  else (rv.index.get? i.toNat).map fun rec => { i := i, record := rec, Index := rv }

/-- Modelled from the spec: `Index.Null()`, the synthetic Null record; its
local index is -1. -/
def Index.Null (rv : Index) : Rec :=
  { i := -1, record := rv.null, Index := rv }

/-- Modelled from the spec: `Index.Tip()`, the last Record of a non-empty
Index. What it answers on an empty Index is said nowhere; the model gives no
result there. -/
def Index.Tip (rv : Index) : Option Rec :=
  rv.Record ((rv.index.length : Int) - 1)

/-- The result of a `Lookup`: the Go pair `(r, err)`. -/
abbrev LookupResult := Option Rec × Option Error

/-- The collaborators of identifier handling: `NewId` parses a hash or hash
prefix string, `NewNodeId` gives the canonical digest of a record's stored
identifier bytes. -/
structure IdFormat where
  NewId : String → Except Error NodeId
  NewNodeId : Bytes → NodeId

/-- Modelled from the spec: `Rec.Id()`, the content identifier of a Record in
canonical digest form. -/
def Rec.Id (f : IdFormat) (r : Rec) : NodeId :=
  f.NewNodeId r.record.NodeId

/-! ## lookup.go -/

/-- `FileRevSpec.Lookup` (lookup.go 17-27). -/
def FileRevSpec.Lookup (n : Int) (i : Index) : Option LookupResult :=
  let n := if n < 0 then n + (i.index.length : Int) else n
  if n < 0 ∨ n ≥ (i.index.length : Int) then
    some (none, some Error.ErrRevisionNotFound)
  else
    (i.Record n).map fun r => (some r, none)

/-- The `for j := range i.index` loop of `LinkRevSpec.Lookup`, from position
`j` on; `rest` are the records at positions `j, j+1, ...` and `r` is the
current value of the result variable (the tip). -/
def LinkRevSpec.loop (want : Int) (i : Index) (r : Rec) :
    Nat → List record → Option LookupResult
  | _, [] => some (some r, none)
  | j, rec :: rest =>
    if (rec.Linkrev : Int) > want then
      if j = 0 then some (some i.Null, none)
      else (i.Record ((j : Int) - 1)).map fun r => (some r, none)
    else LinkRevSpec.loop want i r (j + 1) rest

/-- `LinkRevSpec.Lookup` (lookup.go 31-44). -/
def LinkRevSpec.Lookup (want : Int) (i : Index) : Option LookupResult :=
  match i.Tip with
  | none => none
  | some r => LinkRevSpec.loop want i r 0 i.index

/-- The loop variables `i`, `found`, `err` of `NodeIdRevSpec.Lookup`. -/
structure NodeIdScan where
  i : Int
  found : Bool
  err : Option Error
  deriving DecidableEq, Repr

/-- The `for j := range rv.index` loop of `NodeIdRevSpec.Lookup`, from
position `j` on. -/
def NodeIdRevSpec.loop (f : IdFormat) (wantid : NodeId) :
    Nat → List record → NodeIdScan → NodeIdScan
  | _, [], st => st
  | j, rec :: rest, st =>
    let nodeid := f.NewNodeId rec.NodeId
    let st :=
      if wantid.length ≤ nodeid.length then
        if wantid = nodeid.take wantid.length then
          { i := (j : Int), found := true,
            err := if st.found then some Error.ErrRevisionAmbiguous else st.err }
        else st
      else st
    NodeIdRevSpec.loop f wantid (j + 1) rest st

/-- `NodeIdRevSpec.Lookup` (lookup.go 48-74). -/
def NodeIdRevSpec.Lookup (f : IdFormat) (hash : String) (rv : Index) :
    Option LookupResult :=
  match f.NewId hash with
  | .error e => some (none, some e)
  | .ok wantid =>
    let st := NodeIdRevSpec.loop f wantid 0 rv.index
      { i := -1, found := false, err := none }
    if st.i = -1 then some (none, some Error.ErrRevNotFound)
    else (rv.Record st.i).map fun r => (some r, st.err)

/-- `TipRevSpec.Lookup` (lookup.go 82-89). -/
def TipRevSpec.Lookup (i : Index) : Option LookupResult :=
  let n := i.index.length
  if n = 0 then some (none, some Error.ErrRevisionNotFound)
  else (i.Record ((n : Int) - 1)).map fun r => (some r, none)

/-- `NullRevSpec.Lookup` (lookup.go 97-100). -/
def NullRevSpec.Lookup (i : Index) : Option LookupResult :=
  some (some i.Null, none)

/-! ## Records: derived properties -/

/-- Modelled from the spec: `Rec.IsBase()`, the Record stores a full
snapshot. -/
def Rec.IsBase (r : Rec) : Bool :=
  r.record.Base

/-- Modelled from the spec: `Rec.Prev()`, the immediate predecessor in the
chain, the Record at local index `i - 1`; there is none before the first. -/
def Rec.Prev (r : Rec) : Option Rec :=
  r.Index.Record (r.i - 1)

/-- Modelled from the spec: a parent reference is either Null or another
Record of the same Index. -/
def Rec.parent (r : Rec) (idx : Option Nat) : Option Rec :=
  match idx with
  | none => some r.Index.Null
  | some j => r.Index.Record (j : Int)

/-- Modelled from the spec: `Rec.Parent()`, the first parent. -/
def Rec.Parent (r : Rec) : Option Rec :=
  r.parent r.record.Parent1

/-- Modelled from the spec: `Rec.Parent2()`, the second parent. -/
def Rec.Parent2 (r : Rec) : Option Rec :=
  r.parent r.record.Parent2

/-- A parent reference `p` names the Record with local index `i`. -/
def namesParent (p : Option Nat) (i : Int) : Bool :=
  match p with
  | none => decide (i = -1)
  | some j => decide ((j : Int) = i)

/-- Modelled from the spec: `Rec.IsLeaf()`, no other Record of the Index
names this Record as a parent. -/
def Rec.IsLeaf (r : Rec) : Bool :=
  r.Index.index.enum.all fun jr =>
    decide ((jr.1 : Int) = r.i) ||
      (!namesParent jr.2.Parent1 r.i && !namesParent jr.2.Parent2 r.i)

/-- Modelled from the spec: `Rec.IsStartOfBranch()`, the Record is flagged as
the start of a branch; the data model has no field for it, a Record starts a
branch when it has no parent. -/
def Rec.IsStartOfBranch (r : Rec) : Bool :=
  r.record.Parent1.isNone && r.record.Parent2.isNone

/-! ## filebuilder.go -/

/-- `DataCache` (filebuilder.go 20-23): an interface over some mutable state
`σ`; `Get` answers `none` for a nil slice. -/
structure DataCache (σ : Type) where
  Get : Int → σ → Option Bytes × σ
  Store : Int → Bytes → σ → σ

/-- `noCache` (filebuilder.go 25-28). -/
def noCache {σ : Type} : DataCache σ where
  Get := fun _ s => (none, s)
  Store := fun _ _ s => s

/-- The collaborators of reconstruction, over the state `σ` they share with
the data cache and the type `P` of non-nil hunk slices (`none : Option P` is
the nil slice):
`GetData` is `Rec.GetData` (the raw data reader), `Parse`, `JoinPatches` and
`Apply` are those of package `patch` (`Apply orig pos hunks` gives the bytes
it wrote and its error; the count it returns is the number of bytes written),
`hashSum` is the digest of everything written to a hash made by `NewHash`,
`sortedPair` orders the two parent identifiers. -/
structure Engine (σ P : Type) where
  GetData : Rec → σ → Except Error Bytes × σ
  Parse : Bytes → Except Error (Option P)
  JoinPatches : Option P → Option P → Option P
  Apply : Bytes → Int → Option P → Bytes × Option Error
  hashSum : Bytes → NodeId
  sortedPair : NodeId → NodeId → List NodeId

/-- `FileBuilder` (filebuilder.go 30-36): the data cache, nil unless set, and
the output buffer. The two joiners are the scratch storage of
`Engine.JoinPatches`, the data helper that of `Engine.GetData`. -/
structure FileBuilder (σ : Type) where
  dataCache : Option (DataCache σ)
  fileBuf : Bytes

/-- The cache `PreparePatch` uses (filebuilder.go 89-92): the builder's, or
`noCache` when that is nil. -/
def FileBuilder.cache {σ : Type} (p : FileBuilder σ) : DataCache σ :=
  match p.dataCache with
  | none => noCache
  | some dc => dc

/-- `FilePatch` (filebuilder.go 160-168). The builder it points to is passed
to `Apply` as the buffer `fileBuf`. -/
structure FilePatch (P : Type) where
  rev : Rec
  baseData : Bytes
  patch : Option P
  MetaLen : Int

/-- `bytes.Index` of the Go library: the index of the first instance of `sep`
in `s`, or -1. -/
def bytesIndex : Bytes → Bytes → Int
  | [], sep => if sep = [] then 0 else -1
  | b :: t, sep =>
    if sep.isPrefixOf (b :: t) then 0
    else
      let k := bytesIndex t sep
      if k = -1 then -1 else k + 1

/-- The value of `skip` (filebuilder.go 109-116) for the base record `r`
with data `d`, `rsav` being the requested record. -/
def PreparePatch.skip (r rsav : Rec) (d : Bytes) : Int :=
  if r = rsav ∧ r.IsStartOfBranch = true ∧ d.length > 2 then
    if d.get? 0 = some 1 ∧ d.get? 1 = some 10 then
      let i := bytesIndex (d.drop 2) [1, 10]
      if i ≠ -1 then i + 4 else 0
    else 0
  else 0

/-- The data of record `r` (filebuilder.go 99-107): from the cache, else from
the reader, then stored in the cache. -/
def PreparePatch.data {σ P : Type} (e : Engine σ P) (dc : DataCache σ) (r : Rec) (s : σ) :
    Except Error Bytes × σ :=
  match dc.Get r.i s with
  | (some d, s) => (.ok d, s)
  | (none, s) =>
    match e.GetData r s with
    | (.error err, s) => (.error (Error.getData r.i err), s)
    | (.ok d, s) => (.ok d, dc.Store r.i d s)

/-- The `for` loop of `PreparePatch` (filebuilder.go 98-137). Each iteration
moves to the predecessor, so `r.i + 1` iterations are enough for every
record; `fuel` counts them. -/
def PreparePatch.loop {σ P : Type} (e : Engine σ P) (dc : DataCache σ) (rsav : Rec) :
    Nat → Rec → Option P → σ → Option (Except Error (FilePatch P) × σ)
  | 0, _, _, _ => none
  | fuel + 1, r, prevPatch, s =>
    match PreparePatch.data e dc r s with
    | (.error err, s) => some (.error err, s)
    | (.ok d, s) =>
      if r.IsBase then
        some (.ok { rev := rsav, baseData := d, patch := prevPatch,
                    MetaLen := PreparePatch.skip r rsav d }, s)
      else
        match e.Parse d with
        | .error err1 => some (.error err1, s)
        | .ok hunks =>
          let prevPatch :=
            match prevPatch with
            | none => hunks
            | some _ => e.JoinPatches hunks prevPatch
          match r.Prev with
          | none => none
          | some r => PreparePatch.loop e dc rsav fuel r prevPatch s

/-- `FileBuilder.PreparePatch` (filebuilder.go 86-140). -/
def FileBuilder.PreparePatch {σ P : Type} (e : Engine σ P) (p : FileBuilder σ) (r : Rec) (s : σ) :
    Option (Except Error (FilePatch P) × σ) :=
  PreparePatch.loop e p.cache r (r.i.toNat + 1) r none s

/-- The writers `FilePatch.Apply` writes to: the builder's buffer `fileBuf`
and, when the caller gave a writer, the bytes that writer has received. -/
structure Sinks where
  fileBuf : Bytes
  w : Option Bytes
  deriving DecidableEq, Repr

/-- Append `out` to the writer in use: the caller's, or the buffer. -/
def Sinks.write (k : Sinks) (out : Bytes) : Sinks :=
  match k.w with
  | none => { k with fileBuf := k.fileBuf ++ out }
  | some w => { k with w := some (w ++ out) }

/-- `FilePatch.Apply` (filebuilder.go 170-202); `k.w = none` is the call with
a nil writer. -/
def FilePatch.Apply {σ P : Type} (f : IdFormat) (e : Engine σ P) (p : FilePatch P) (k : Sinks) :
    Option (Option Error × Sinks) :=
  let k := match k.w with
    | none => { k with fileBuf := [] }
    | some _ => k
  let r := p.rev
  match r.Parent, r.Parent2 with
  | some p1, some p2 =>
    let ids := (e.sortedPair (p1.Id f) (p2.Id f)).flatten
    let orig := p.baseData
    if p.MetaLen > (orig.length : Int) then none
    else
      let header := if p.MetaLen > 0 then orig.take p.MetaLen.toNat else []
      let n : Int := if p.MetaLen > 0 then p.MetaLen else 0
      match e.Apply orig n p.patch with
      | (out, some err) => some (some err, k.write out)
      | (out, none) =>
        let n : Int := out.length
        if n ≠ (r.record.FileLength : Int) then
          some (some (Error.lengthMismatch n r.record.FileLength), k.write out)
        else if e.hashSum (ids ++ header ++ out) ≠ r.Id f then
          some (some Error.hashMismatch, k.write out)
        else some (none, k.write out)
  | _, _ => none

/-- `FileBuilder.BuildWrite` (filebuilder.go 142-148); `w` are the bytes the
writer has received before the call. -/
def FileBuilder.BuildWrite {σ P : Type} (f : IdFormat) (e : Engine σ P) (p : FileBuilder σ)
    (w : Bytes) (r : Rec) (s : σ) : Option (Option Error × Sinks × σ) :=
  match p.PreparePatch e r s with
  | none => none
  | some (.error err, s) => some (some err, { fileBuf := p.fileBuf, w := some w }, s)
  | some (.ok fp, s) =>
    match fp.Apply f e { fileBuf := p.fileBuf, w := some w } with
    | none => none
    | some (err, k) => some (err, k, s)

/-- `FileBuilder.Build` (filebuilder.go 149-158): the result pair
`(file, err)`, the builder's buffer afterwards and the state. -/
def FileBuilder.Build {σ P : Type} (f : IdFormat) (e : Engine σ P) (p : FileBuilder σ)
    (r : Rec) (s : σ) : Option ((Option Bytes × Option Error) × Bytes × σ) :=
  match p.PreparePatch e r s with
  | none => none
  | some (.error err, s) => some ((none, some err), p.fileBuf, s)
  | some (.ok fp, s) =>
    match fp.Apply f e { fileBuf := p.fileBuf, w := none } with
    | none => none
    | some (some err, k) => some ((none, some err), k.fileBuf, s)
    | some (none, k) => some ((some k.fileBuf, none), k.fileBuf, s)

/-! ## cmd/hgo/cmdcat.go -/

/-- Modelled from the spec: `store.ManifestEnt`, a manifest entry exposing a
content identifier or the error of obtaining it (`ManifestEnt.Id()`). -/
structure ManifestEnt where
  Id : Except Error NodeId

/-- `LookupFile` (cmdcat.go 18-51). The deferred computation `manifestEntry`
is a function on a state `μ` of its own, returned with the result. -/
def LookupFile {μ : Type} (f : IdFormat) (fileLog : Index) (chgId : Int)
    (manifestEntry : μ → Except Error ManifestEnt × μ) (m : μ) :
    Option (LookupResult × μ) :=
  match LinkRevSpec.Lookup chgId fileLog with
  | none => none
  | some (r, some err) => some ((r, some err), m)
  | some (none, none) => none
  | some (some r, none) =>
    if (r.record.Linkrev : Int) = chgId then some ((some r, none), m)
    else if !r.IsLeaf then some ((some r, none), m)
    else
      match manifestEntry m with
      | (.error err, m) => some ((some r, some err), m)
      | (.ok ent, m) =>
        match ent.Id with
        | .error err => some ((some r, some err), m)
        | .ok wantId =>
          if wantId ≠ r.Id f then some ((some r, some Error.manifestMismatch), m)
          else some ((some r, none), m)

/-- A deferred computation that also counts how often it is invoked. -/
def counting {μ α : Type} (g : μ → α × μ) : μ × Nat → α × (μ × Nat) :=
  fun mn => ((g mn.1).1, ((g mn.1).2, mn.2 + 1))

/-! ## Concrete data for evaluation -/

/-- The value of a hexadecimal digit. -/
def hexDigit (c : Char) : Option Nat :=
  if '0' ≤ c ∧ c ≤ '9' then some (c.toNat - '0'.toNat)
  else if 'a' ≤ c ∧ c ≤ 'f' then some (c.toNat - 'a'.toNat + 10)
  else if 'A' ≤ c ∧ c ≤ 'F' then some (c.toNat - 'A'.toNat + 10)
  else none

/-- Decode hexadecimal text, two digits a byte. -/
def decodeHex : List Char → Option Bytes
  | [] => some []
  | [_] => none
  | a :: b :: rest =>
    match hexDigit a, hexDigit b, decodeHex rest with
    | some x, some y, some t => some ((16 * x + y) :: t)
    | _, _, _ => none

/-- Modelled from the spec: an identifier format in which `NewId` parses
hexadecimal text, failing on invalid length or characters, and stored
identifiers are already canonical. -/
def hexFormat : IdFormat where
  NewId := fun s =>
    match decodeHex s.toList with
    | some b => .ok b
    | none => .error (Error.other "invalid identifier")
  NewNodeId := fun b => b

/-- A record with the given outer link and identifier, a snapshot without
parents. -/
def mkRecord (linkrev : Nat) (id : Bytes) : record :=
  { Linkrev := linkrev, Base := true, Parent1 := none, Parent2 := none,
    FileLength := 0, NodeId := id }

/-- The contents of the Null record in the examples. -/
def nullRecord : record := mkRecord 0 []

/-- The empty Index. -/
def emptyIndex : Index := { index := [], null := nullRecord }

/-- An Index of five records with outer links 0, 0, 2, 2, 5. -/
def fiveIndex : Index :=
  { index := [mkRecord 0 [0x1a, 0x01], mkRecord 0 [0x1a, 0x02], mkRecord 2 [0x2b, 0x03],
      mkRecord 2 [0x3c, 0x04], mkRecord 5 [0x4d, 0x05]],
    null := nullRecord }

/-- An Index of one record, with outer link 0: a leaf. -/
def oneIndex : Index :=
  { index := [mkRecord 0 [0x1a, 0x01]], null := nullRecord }

/-- An Index of two records with outer links 0 and 5, the second naming the
first as its parent: the first is not a leaf. -/
def twoIndex : Index :=
  { index := [mkRecord 0 [0x1a, 0x01],
      { mkRecord 5 [0x2b, 0x02] with Parent1 := some 0 }],
    null := nullRecord }

/-- A manifest lookup that fails: the file is not in the manifest. -/
def manifestAbsent : Unit → Except Error ManifestEnt × Unit :=
  fun u => (.error (Error.other "file does not exist in given revision"), u)

/-- A manifest lookup that finds an entry with the given identifier. -/
def manifestWith (id : NodeId) : Unit → Except Error ManifestEnt × Unit :=
  fun u => (.ok { Id := .ok id }, u)

/-- An Index whose outer links 3, 0, 5, 2 are not ordered. -/
def unorderedIndex : Index :=
  { index := [mkRecord 3 [0x01], mkRecord 0 [0x02], mkRecord 5 [0x03], mkRecord 2 [0x04]],
    null := nullRecord }

/-- A manifest lookup that finds an entry whose identifier does not parse. -/
def manifestBadId : Unit → Except Error ManifestEnt × Unit :=
  fun u => (.ok { Id := .error (Error.other "invalid identifier") }, u)

/-- The record has the digest as a prefix of its identifier. -/
def idMatches (f : IdFormat) (wantid : NodeId) (rec : record) : Bool :=
  wantid.isPrefixOf (f.NewNodeId rec.NodeId)

/-! ## Delta chains -/

/-- A chain of revisions as the round-trip property describes it, for the
Index `idx`, the contents `content j`, the stored raw data `raw j` and the
parsed deltas `delta j`:
revision 0 is the only snapshot and stores content 0; each later revision
stores a delta that parses and takes content `j - 1` to content `j`; the
expected length and the identifier of each record are those of its content;
the parents of each record resolve; composing patches is applying the older
then the newer, and the absent patch changes nothing; the data obtained for
revision `j`, from the cache or the reader, is `raw j` in every state
satisfying `Inv`, which cache and reader maintain. -/
structure RoundTripChain {σ P : Type} (f : IdFormat) (e : Engine σ P) (dc : DataCache σ)
    (Inv : σ → Prop) (idx : Index) (content raw : Nat → Bytes) (delta : Nat → Option P) :
    Prop where
  snapshot : ∀ (j : Nat) r, idx.Record (j : Int) = some r → (r.IsBase = true ↔ j = 0)
  raw_zero : raw 0 = content 0
  parse : ∀ j, 0 < j → j < idx.index.length → e.Parse (raw j) = .ok (delta j)
  step : ∀ j, 0 < j → j < idx.index.length →
    e.Apply (content (j - 1)) 0 (delta j) = (content j, none)
  length : ∀ (j : Nat) r, idx.Record (j : Int) = some r →
    r.record.FileLength = (content j).length
  ident : ∀ (j : Nat) r, idx.Record (j : Int) = some r →
    ∃ p1 p2, r.Parent = some p1 ∧ r.Parent2 = some p2 ∧
      e.hashSum ((e.sortedPair (p1.Id f) (p2.Id f)).flatten ++ content j) = r.Id f
  join : ∀ base older newer mid, e.Apply base 0 older = (mid, none) →
    e.Apply base 0 (e.JoinPatches older newer) = e.Apply mid 0 newer
  absent : ∀ base, e.Apply base 0 none = (base, none)
  cached : ∀ s (j : Nat), Inv s →
    ((dc.Get (j : Int) s).1 = none ∨ (dc.Get (j : Int) s).1 = some (raw j)) ∧
      Inv (dc.Get (j : Int) s).2
  fetched : ∀ s (j : Nat) r, Inv s → idx.Record (j : Int) = some r →
    (e.GetData r s).1 = .ok (raw j) ∧ Inv (e.GetData r s).2
  stored : ∀ s (j : Nat), Inv s → Inv (dc.Store (j : Int) (raw j) s)

/-! ## A concrete engine for evaluation -/

/-- An edit: replace `del` bytes at offset `start` by `ins`. -/
structure Edit where
  start : Nat
  del : Nat
  ins : Bytes
  deriving DecidableEq, Repr

/-- Apply one edit. -/
def Edit.apply (b : Bytes) (h : Edit) : Bytes :=
  b.take h.start ++ h.ins ++ b.drop (h.start + h.del)

/-- Parse edits written as `start, del, n, x1, ..., xn`. -/
def parseEdits : Nat → Bytes → Option (List Edit)
  | _, [] => some []
  | 0, _ :: _ => none
  | fuel + 1, s :: d :: n :: rest =>
    if rest.length < n then none
    else (parseEdits fuel (rest.drop n)).map fun t => { start := s, del := d, ins := rest.take n } :: t
  | _ + 1, _ => none

/-- A checksum standing for the hash of the Index. -/
def checksum (b : Bytes) : NodeId :=
  [b.foldl (fun a x => (31 * a + x) % 251) 7, b.length % 256]

/-- An engine whose patches are lists of edits applied one after the other,
composed by concatenation, reading the raw data of revision `j` from the
table `raw`. -/
def editEngine (raw : List Bytes) : Engine Unit (List Edit) where
  GetData := fun r s =>
    (match raw.get? r.i.toNat with
      | some d => .ok d
      | none => .error (Error.other "read error"), s)
  Parse := fun d =>
    match d, parseEdits d.length d with
    | [], _ => .ok none
    | _, some t => .ok (some t)
    | _, none => .error (Error.other "corrupt patch")
  JoinPatches := fun older newer =>
    match older, newer with
    | none, newer => newer
    | older, none => older
    | some a, some b => some (a ++ b)
  Apply := fun orig pos hunks =>
    (match hunks with
      | none => orig.drop pos.toNat
      | some t => t.foldl Edit.apply (orig.drop pos.toNat), none)
  hashSum := checksum
  sortedPair := fun a b => if b < a then [b, a] else [a, b]

/-- A builder with no data cache set. -/
def plainBuilder : FileBuilder Unit :=
  { dataCache := none, fileBuf := [] }

/-- The contents of a chain of three revisions: `ab`, `abc`, `xbc`. -/
def chainContent : Nat → Bytes
  | 0 => [97, 98]
  | 1 => [97, 98, 99]
  | _ => [120, 98, 99]

/-- The raw data of the chain: the snapshot, then the two deltas. -/
def chainRaw : List Bytes :=
  [[97, 98], [2, 0, 1, 99], [0, 1, 1, 120]]

/-- The deltas of the chain. -/
def chainDelta : Nat → Option (List Edit)
  | 0 => none
  | 1 => some [{ start := 2, del := 0, ins := [99] }]
  | _ => some [{ start := 0, del := 1, ins := [120] }]

/-- The identifier of revision 0 of the chain. -/
def chainId0 : NodeId := checksum (chainContent 0)

/-- The identifier of revision 1 of the chain, whose parent is revision 0. -/
def chainId1 : NodeId := checksum (chainId0 ++ chainContent 1)

/-- The identifier of revision 2 of the chain, whose parent is revision 1. -/
def chainId2 : NodeId := checksum (chainId1 ++ chainContent 2)

/-- The record of revision 0 of the chain: the snapshot. -/
def chainRec0 : record :=
  { Linkrev := 0, Base := true, Parent1 := none, Parent2 := none,
    FileLength := 2, NodeId := chainId0 }

/-- The record of revision 1 of the chain: a delta. -/
def chainRec1 : record :=
  { Linkrev := 1, Base := false, Parent1 := some 0, Parent2 := none,
    FileLength := 3, NodeId := chainId1 }

/-- The record of revision 2 of the chain: a delta. -/
def chainRec2 : record :=
  { Linkrev := 2, Base := false, Parent1 := some 1, Parent2 := none,
    FileLength := 3, NodeId := chainId2 }

/-- The Index of the chain. -/
def chainIndex : Index :=
  { index := [chainRec0, chainRec1, chainRec2], null := nullRecord }

/-- A content that begins with a metadata header: the marker, `m`, the marker
again, then `b`. -/
def metaContent : Bytes := [1, 10, 109, 1, 10, 98]

/-- The record of a snapshot storing `metaContent`, its expected length and
identifier those of that content. -/
def metaRec : record :=
  { Linkrev := 0, Base := true, Parent1 := none, Parent2 := none,
    FileLength := 6, NodeId := checksum metaContent }

/-- The Index of a chain of one revision storing `metaContent`. -/
def metaIndex : Index :=
  { index := [metaRec], null := nullRecord }

/-- The patch `PreparePatch` prepares for revision 0 of the chain: the
snapshot, no delta, no header. -/
def chainPatch0 : FilePatch (List Edit) :=
  { rev := { i := 0, record := chainRec0, Index := chainIndex },
    baseData := [97, 98], patch := none, MetaLen := 0 }

/-- The patch `PreparePatch` prepares for the revision storing `metaContent`:
the snapshot, no delta, a header of 5 bytes. -/
def metaPatch : FilePatch (List Edit) :=
  { rev := { i := 0, record := metaRec, Index := metaIndex },
    baseData := metaContent, patch := none, MetaLen := 5 }

/-! ## Observing the cache and the reader -/

/-- What `PreparePatch` does with the cache and the reader: a `Get` for an
index with its answer, a `GetData` for the record of an index with its result,
a `Store` under an index. -/
inductive Event where
  | get (i : Int) (found : Option Bytes) : Event
  | fetch (i : Int) (res : Except Error Bytes) : Event
  | store (i : Int) (d : Bytes) : Event

/-- A cache that also logs its calls. -/
def DataCache.traced {σ : Type} (dc : DataCache σ) : DataCache (σ × List Event) where
  Get := fun i sl =>
    ((dc.Get i sl.1).1, ((dc.Get i sl.1).2, sl.2 ++ [Event.get i (dc.Get i sl.1).1]))
  Store := fun i d sl => (dc.Store i d sl.1, sl.2 ++ [Event.store i d])

/-- An engine whose reader also logs its calls. -/
def Engine.traced {σ P : Type} (e : Engine σ P) : Engine (σ × List Event) P where
  GetData := fun r sl =>
    ((e.GetData r sl.1).1,
      ((e.GetData r sl.1).2, sl.2 ++ [Event.fetch r.i (e.GetData r sl.1).1]))
  Parse := e.Parse
  JoinPatches := e.JoinPatches
  Apply := e.Apply
  hashSum := e.hashSum
  sortedPair := e.sortedPair

/-- A builder whose cache also logs its calls. -/
def FileBuilder.traced {σ : Type} (p : FileBuilder σ) : FileBuilder (σ × List Event) :=
  { dataCache := some p.cache.traced, fileBuf := p.fileBuf }

/-- The events of one iteration for the record of index `i`: the cache is
asked first; it has the data, or it has not and the reader is called, whose
data is then stored under `i`, unless the reader fails. -/
def IsBlock (i : Int) (blk : List Event) : Prop :=
  (∃ d, blk = [Event.get i (some d)]) ∨
  (∃ d, blk = [Event.get i none, Event.fetch i (.ok d), Event.store i d]) ∨
  (∃ err, blk = [Event.get i none, Event.fetch i (.error err)])

/-- A log made of the events of one iteration for each index of the list, in
order. -/
def IsTrace : List Int → List Event → Prop
  | [], tr => tr = []
  | i :: rest, tr => ∃ blk tail, tr = blk ++ tail ∧ IsBlock i blk ∧ IsTrace rest tail

/-- The indexes `i, i - 1, ...`, `n` of them. -/
def descending (i : Int) : Nat → List Int
  | 0 => []
  | n + 1 => i :: descending (i - 1) n

/-- The events `blk` of one iteration for the record `r` from the state `s`,
and the state `s'` after it, as the cache and the reader answer there: the
cache is asked under `r.i`; when it has the data nothing else happens; when it
reports absent the reader is called for `r` and, if it succeeds, its data is
stored under `r.i`. -/
def IsStep {σ P : Type} (e : Engine σ P) (dc : DataCache σ) (r : Rec) (s : σ)
    (blk : List Event) (s' : σ) : Prop :=
  match (dc.Get r.i s).1 with
  | some d => blk = [Event.get r.i (some d)] ∧ s' = (dc.Get r.i s).2
  | none =>
    match (e.GetData r (dc.Get r.i s).2).1 with
    | .error err =>
      blk = [Event.get r.i none, Event.fetch r.i (.error err)] ∧
        s' = (e.GetData r (dc.Get r.i s).2).2
    | .ok d =>
      blk = [Event.get r.i none, Event.fetch r.i (.ok d), Event.store r.i d] ∧
        s' = dc.Store r.i d (e.GetData r (dc.Get r.i s).2).2

/-- A log `tr` and final state `s'` of `n` iterations from the record `r` and
the state `s`: the events of one iteration for `r`, then those for its
predecessor from the state reached, and so on. -/
def IsRun {σ P : Type} (e : Engine σ P) (dc : DataCache σ) :
    Nat → Rec → σ → List Event → σ → Prop
  | 0, _, s, tr, s' => tr = [] ∧ s' = s
  | n + 1, r, s, tr, s' =>
    ∃ blk s1 tail, tr = blk ++ tail ∧ IsStep e dc r s blk s1 ∧
      ((n = 0 ∧ tail = [] ∧ s' = s1) ∨
        (0 < n ∧ ∃ r', r.Prev = some r' ∧ IsRun e dc n r' s1 tail s'))

/-- The predecessor chain of `r` reaches a base record after `k` steps. -/
def Rec.reachesBase (r : Rec) : Nat → Bool
  | 0 => r.IsBase
  | k + 1 =>
    !r.IsBase &&
      match r.Prev with
      | none => false
      | some r' => r'.reachesBase k

/-- The accumulation step of `PreparePatch` (filebuilder.go 130-135): the
newly parsed hunks replace a nil accumulated patch, else they are joined with
it as the older operand. -/
def PreparePatch.joinStep {σ P : Type} (e : Engine σ P) (prevPatch hunks : Option P) :
    Option P :=
  match prevPatch with
  | none => hunks
  | some _ => e.JoinPatches hunks prevPatch

/-- The right-nested composition of the deltas `p1, ..., pk`, oldest first:
absent for none, `pk` for one, else `JoinPatches(p1, JoinPatches(p2, ...))`. -/
def composeRight {σ P : Type} (e : Engine σ P) : List (Option P) → Option P
  | [] => none
  | [p] => p
  | p :: q :: rest => e.JoinPatches p (composeRight e (q :: rest))

/-- A delta chain for `PreparePatch`: the record at local index `b` of `idx`
is a base, those at `b + 1, ..., b + k` are deltas whose raw data `raw j`
parses to `delta j`, and the data obtained for the record at `j`, from the
cache or the reader, is `raw j` in every state satisfying `Inv`, which cache
and reader maintain. -/
structure PatchChain {σ P : Type} (e : Engine σ P) (dc : DataCache σ) (Inv : σ → Prop)
    (idx : Index) (b k : Nat) (raw : Nat → Bytes) (delta : Nat → Option P) : Prop where
  base : ∀ r, idx.Record (b : Int) = some r → r.IsBase = true
  inner : ∀ (j : Nat) r, b < j → j ≤ b + k → idx.Record (j : Int) = some r →
    r.IsBase = false
  parse : ∀ j, b < j → j ≤ b + k → e.Parse (raw j) = .ok (delta j)
  cached : ∀ s (j : Nat), b ≤ j → j ≤ b + k → Inv s →
    ((dc.Get (j : Int) s).1 = none ∨ (dc.Get (j : Int) s).1 = some (raw j)) ∧
      Inv (dc.Get (j : Int) s).2
  fetched : ∀ s (j : Nat) r, b ≤ j → j ≤ b + k → Inv s → idx.Record (j : Int) = some r →
    (e.GetData r s).1 = .ok (raw j) ∧ Inv (e.GetData r s).2
  stored : ∀ s (j : Nat), b ≤ j → j ≤ b + k → Inv s → Inv (dc.Store (j : Int) (raw j) s)

/-- The deltas `delta (b + 1), ..., delta (b + k)` of a chain, oldest first. -/
def chainDeltas {P : Type} (delta : Nat → Option P) (b k : Nat) : List (Option P) :=
  (List.range k).map fun t => delta (b + 1 + t)

/-! ## Engines and caches for evaluation -/

/-- A cache kept as an association list, newest entry first. -/
def listCache : DataCache (List (Int × Bytes)) where
  Get := fun i s => (s.lookup i, s)
  Store := fun i d s => (i, d) :: s

/-- The edit engine over the state of the list cache. -/
def cachedEngine (raw : List Bytes) : Engine (List (Int × Bytes)) (List Edit) where
  GetData := fun r s => (((editEngine raw).GetData r ()).1, s)
  Parse := (editEngine raw).Parse
  JoinPatches := (editEngine raw).JoinPatches
  Apply := (editEngine raw).Apply
  hashSum := (editEngine raw).hashSum
  sortedPair := (editEngine raw).sortedPair

/-- A builder using the list cache. -/
def cachedBuilder : FileBuilder (List (Int × Bytes)) :=
  { dataCache := some listCache, fileBuf := [] }

/-! ## Theorems: lookup.go -/

theorem Index.Record_eq_some_iff (rv : Index) (i : Int) (r : Rec) :
    rv.Record i = some r ↔
      0 ≤ i ∧ ∃ rec, rv.index.get? i.toNat = some rec ∧ r = ⟨i, rec, rv⟩ := by
  unfold Index.Record
  by_cases h : i < 0
  · simp [h]
  · simp only [h, if_false, Option.map_eq_some']
    constructor
    · rintro ⟨rec, h1, h2⟩
      exact ⟨by omega, rec, h1, h2.symm⟩
    · rintro ⟨_, rec, h1, h2⟩
      exact ⟨rec, h1, h2.symm⟩

theorem Index.Record_of_lt (rv : Index) (k : Nat) (h : k < rv.index.length) :
    rv.Record (k : Int) = some ⟨(k : Int), rv.index.get ⟨k, h⟩, rv⟩ := by
  rw [Index.Record_eq_some_iff]
  refine ⟨by omega, rv.index.get ⟨k, h⟩, ?_, rfl⟩
  simp [List.getElem?_eq_getElem h]

theorem Index.Record_isSome_iff (rv : Index) (i : Int) :
    (rv.Record i).isSome = true ↔ 0 ≤ i ∧ i < (rv.index.length : Int) := by
  unfold Index.Record
  by_cases h : i < 0
  · simp [h]
  · simp only [h, if_false, Option.isSome_map']
    rw [← Option.ne_none_iff_isSome]
    simp only [ne_eq, List.get?_eq_none, not_le]
    constructor
    · intro h1
      exact ⟨by omega, by omega⟩
    · rintro ⟨_, h2⟩
      omega

/-- The local index `FileRevSpec.Lookup` resolves `n` to: `n` itself, or
`len + n` for a negative `n`. -/
theorem FileRevSpec_Lookup_eq (n : Int) (i : Index)
    (h : -(i.index.length : Int) ≤ n ∧ n < (i.index.length : Int)) :
    FileRevSpec.Lookup n i =
      (i.Record (if 0 ≤ n then n else (i.index.length : Int) + n)).map
        fun r => (some r, none) := by
  unfold FileRevSpec.Lookup
  by_cases hn : n < 0
  · have h1 : ¬ (0 ≤ n) := by omega
    have h2 : ¬ (n + (i.index.length : Int) < 0 ∨
        n + (i.index.length : Int) ≥ (i.index.length : Int)) := by omega
    simp only [hn, h1, if_true, if_false, h2]
    rw [add_comm]
  · have h1 : 0 ≤ n := by omega
    have h2 : ¬ (n ≥ (i.index.length : Int)) := by omega
    simp only [hn, h1, if_true, if_false, false_or, h2]

/-- C2: `FileRevSpec(n).Lookup` on an Index of length `len` succeeds exactly
when `-len ≤ n < len`; the Record it then returns is the one at local index `n`
for `n ≥ 0` and at `len + n` for `n < 0`; outside the range it returns no
Record and `ErrRevisionNotFound`. -/
theorem FileRevSpec_Lookup_spec (n : Int) (i : Index) :
    ((∃ r, FileRevSpec.Lookup n i = some (some r, none)) ↔
        (-(i.index.length : Int) ≤ n ∧ n < (i.index.length : Int))) ∧
    (∀ r, FileRevSpec.Lookup n i = some (some r, none) →
        i.Record (if 0 ≤ n then n else (i.index.length : Int) + n) = some r ∧
        r.i = (if 0 ≤ n then n else (i.index.length : Int) + n)) ∧
    (¬ (-(i.index.length : Int) ≤ n ∧ n < (i.index.length : Int)) →
        FileRevSpec.Lookup n i = some (none, some Error.ErrRevisionNotFound)) := by
  have hout : ¬ (-(i.index.length : Int) ≤ n ∧ n < (i.index.length : Int)) →
      FileRevSpec.Lookup n i = some (none, some Error.ErrRevisionNotFound) := by
    intro h
    unfold FileRevSpec.Lookup
    by_cases hn : n < 0
    · have h2 : n + (i.index.length : Int) < 0 ∨
          n + (i.index.length : Int) ≥ (i.index.length : Int) := by omega
      simp only [hn, if_true, h2]
    · have h2 : n ≥ (i.index.length : Int) := by omega
      simp only [hn, if_false, false_or, h2, if_true]
  have hin : (-(i.index.length : Int) ≤ n ∧ n < (i.index.length : Int)) →
      ∃ r, i.Record (if 0 ≤ n then n else (i.index.length : Int) + n) = some r := by
    intro h
    rw [← Option.isSome_iff_exists, Index.Record_isSome_iff]
    split_ifs <;> omega
  refine ⟨⟨?_, ?_⟩, ?_, hout⟩
  · rintro ⟨r, hr⟩
    by_contra h
    rw [hout h] at hr
    simp at hr
  · intro h
    obtain ⟨r, hr⟩ := hin h
    exact ⟨r, by rw [FileRevSpec_Lookup_eq n i h, hr]; rfl⟩
  · intro r hr
    have h : -(i.index.length : Int) ≤ n ∧ n < (i.index.length : Int) := by
      by_contra h
      rw [hout h] at hr
      simp at hr
    obtain ⟨r', hr'⟩ := hin h
    rw [FileRevSpec_Lookup_eq n i h, hr'] at hr
    simp only [Option.map_some', Option.some.injEq, Prod.mk.injEq, and_true] at hr
    subst hr
    refine ⟨hr', ?_⟩
    rw [Index.Record_eq_some_iff] at hr'
    obtain ⟨_, rec, _, h3⟩ := hr'
    rw [h3]

/-- C2 at length 5: -1 resolves to local index 4, while 5 and -6 fail. -/
theorem FileRevSpec_Lookup_spec_witness :
    (∃ r, FileRevSpec.Lookup (-1) fiveIndex = some (some r, none) ∧ r.i = 4) ∧
    FileRevSpec.Lookup 5 fiveIndex = some (none, some Error.ErrRevisionNotFound) ∧
    FileRevSpec.Lookup (-6) fiveIndex = some (none, some Error.ErrRevisionNotFound) := by
  refine ⟨?_, (FileRevSpec_Lookup_spec 5 fiveIndex).2.2 (by decide),
    (FileRevSpec_Lookup_spec (-6) fiveIndex).2.2 (by decide)⟩
  obtain ⟨r, hr⟩ := (FileRevSpec_Lookup_spec (-1) fiveIndex).1.2 (by decide)
  exact ⟨r, hr, ((FileRevSpec_Lookup_spec (-1) fiveIndex).2.1 r hr).2⟩

/-- A list either has no element satisfying `p`, or splits at the first one. -/
theorem split_at_first {α : Type} (p : α → Prop) [DecidablePred p] (l : List α) :
    (∀ x ∈ l, ¬ p x) ∨
      ∃ pre x post, l = pre ++ x :: post ∧ (∀ y ∈ pre, ¬ p y) ∧ p x := by
  induction l with
  | nil => left; simp
  | cons a t ih =>
    by_cases ha : p a
    · right
      exact ⟨[], a, t, rfl, by simp, ha⟩
    · rcases ih with h | ⟨pre, x, post, h1, h2, h3⟩
      · left
        intro x hx
        rcases List.mem_cons.mp hx with rfl | hx
        · exact ha
        · exact h x hx
      · right
        refine ⟨a :: pre, x, post, by rw [h1]; rfl, ?_, h3⟩
        intro y hy
        rcases List.mem_cons.mp hy with rfl | hy
        · exact ha
        · exact h2 y hy

/-- The scan of `LinkRevSpec.Lookup` over records none of which exceeds `want`
keeps the tip. -/
theorem LinkRevSpec_loop_none (want : Int) (i : Index) (r : Rec) :
    ∀ (rest : List record) (j : Nat), (∀ rec ∈ rest, ¬ ((rec.Linkrev : Int) > want)) →
      LinkRevSpec.loop want i r j rest = some (some r, none) := by
  intro rest
  induction rest with
  | nil => intro j _; rfl
  | cons a t ih =>
    intro j h
    have ha : ¬ ((a.Linkrev : Int) > want) := h a (List.mem_cons_self a t)
    simp only [LinkRevSpec.loop, ha, if_false]
    exact ih (j + 1) fun rec hrec => h rec (List.mem_cons_of_mem a hrec)

/-- The scan of `LinkRevSpec.Lookup` stops at the first record exceeding
`want`, at position `j + pre.length`, and answers with the record before it,
or Null at position 0. -/
theorem LinkRevSpec_loop_first (want : Int) (i : Index) (r : Rec) :
    ∀ (pre : List record) (rec : record) (post : List record) (j : Nat),
      (∀ y ∈ pre, ¬ ((y.Linkrev : Int) > want)) → (rec.Linkrev : Int) > want →
      LinkRevSpec.loop want i r j (pre ++ rec :: post) =
        if j + pre.length = 0 then some (some i.Null, none)
        else (i.Record (((j + pre.length : Nat) : Int) - 1)).map fun r => (some r, none) := by
  intro pre
  induction pre with
  | nil =>
    intro rec post j _ hrec
    simp only [List.nil_append, LinkRevSpec.loop, hrec, if_true, List.length_nil, add_zero]
  | cons a t ih =>
    intro rec post j h hrec
    have ha : ¬ ((a.Linkrev : Int) > want) := h a (List.mem_cons_self a t)
    rw [List.cons_append, LinkRevSpec.loop, if_neg ha]
    rw [ih rec post (j + 1) (fun y hy => h y (List.mem_cons_of_mem a hy)) hrec]
    have e : j + 1 + t.length = j + (a :: t).length := by simp; omega
    rw [e]

/-- The tip of a non-empty Index is its last record. -/
theorem Index.Tip_of_ne_nil (rv : Index) (h : rv.index ≠ []) :
    ∃ r, rv.Tip = some r ∧ rv.Record ((rv.index.length : Int) - 1) = some r := by
  have hlen : 0 < rv.index.length := List.length_pos.mpr h
  have : (rv.Record ((rv.index.length : Int) - 1)).isSome = true := by
    rw [Index.Record_isSome_iff]
    omega
  obtain ⟨r, hr⟩ := Option.isSome_iff_exists.mp this
  exact ⟨r, hr, hr⟩

/-- What `LinkRevSpec.Lookup` computes on a non-empty Index, whatever the
order of the outer links: the tip when no record exceeds `want`, else Null
when the first record does, else the record before the first that does. -/
theorem LinkRevSpec_Lookup_scan (want : Int) (i : Index) (h : i.index ≠ []) :
    ((∀ rec ∈ i.index, ¬ ((rec.Linkrev : Int) > want)) ∧
        ∃ r, i.Record ((i.index.length : Int) - 1) = some r ∧
          LinkRevSpec.Lookup want i = some (some r, none)) ∨
    (∃ rec post, i.index = rec :: post ∧ (rec.Linkrev : Int) > want ∧
        LinkRevSpec.Lookup want i = some (some i.Null, none)) ∨
    (∃ pre a rec post, i.index = (pre ++ [a]) ++ rec :: post ∧
        (∀ y ∈ pre ++ [a], ¬ ((y.Linkrev : Int) > want)) ∧ (rec.Linkrev : Int) > want ∧
        LinkRevSpec.Lookup want i =
          some (some ⟨(pre.length : Int), a, i⟩, none)) := by
  obtain ⟨tip, htip, htip'⟩ := Index.Tip_of_ne_nil i h
  rcases split_at_first (fun rec : record => (rec.Linkrev : Int) > want) i.index with
    hnone | ⟨pre, rec, post, hsplit, hpre, hrec⟩
  · left
    refine ⟨hnone, tip, htip', ?_⟩
    simp only [LinkRevSpec.Lookup, htip]
    exact LinkRevSpec_loop_none want i tip i.index 0 hnone
  · right
    have hl : LinkRevSpec.Lookup want i =
        if 0 + pre.length = 0 then some (some i.Null, none)
        else (i.Record (((0 + pre.length : Nat) : Int) - 1)).map fun r => (some r, none) := by
      simp only [LinkRevSpec.Lookup, htip]
      have := LinkRevSpec_loop_first want i tip pre rec post 0 hpre hrec
      rw [← hsplit] at this
      exact this
    rcases List.eq_nil_or_concat pre with hp | ⟨pre', a, hp⟩
    · left
      subst hp
      exact ⟨rec, post, hsplit, hrec, by simpa using hl⟩
    · right
      rw [List.concat_eq_append] at hp
      subst hp
      refine ⟨pre', a, rec, post, hsplit, hpre, hrec, ?_⟩
      rw [hl]
      have hne : ¬ (0 + (pre' ++ [a]).length = 0) := by simp
      have hidx : (((0 + (pre' ++ [a]).length : Nat) : Int) - 1) = (pre'.length : Int) := by
        simp
      have hrecd : i.Record (pre'.length : Int) = some ⟨(pre'.length : Int), a, i⟩ := by
        rw [Index.Record_eq_some_iff]
        refine ⟨by omega, a, ?_, rfl⟩
        rw [hsplit, List.append_assoc, Int.toNat_ofNat, List.get?_eq_getElem?,
          List.getElem?_append_right (le_refl _)]
        simp
      rw [if_neg hne, hidx, hrecd]
      rfl

/-- On a non-empty Index ordered by non-decreasing outer link,
`LinkRevSpec.Lookup` returns without error the last record whose outer link
does not exceed `want` (every later record exceeds it), or Null when every
record exceeds it. -/
theorem LinkRevSpec_Lookup_sorted (want : Int) (i : Index) (h : i.index ≠ [])
    (hs : i.index.Pairwise fun a b => a.Linkrev ≤ b.Linkrev) :
    ((∀ rec ∈ i.index, want < (rec.Linkrev : Int)) ∧
        LinkRevSpec.Lookup want i = some (some i.Null, none)) ∨
    (∃ pre a post, i.index = pre ++ a :: post ∧ (a.Linkrev : Int) ≤ want ∧
        (∀ y ∈ post, want < (y.Linkrev : Int)) ∧
        LinkRevSpec.Lookup want i = some (some ⟨(pre.length : Int), a, i⟩, none)) := by
  rcases LinkRevSpec_Lookup_scan want i h with
    ⟨hall, r, hr, hl⟩ | ⟨rec, post, hsplit, hrec, hl⟩ | ⟨pre, a, rec, post, hsplit, hpre, hrec, hl⟩
  · right
    rcases List.eq_nil_or_concat i.index with hnil | ⟨pre, a, hp⟩
    · exact absurd hnil h
    · rw [List.concat_eq_append] at hp
      refine ⟨pre, a, [], hp, ?_, by simp, ?_⟩
      · have := hall a (by rw [hp]; simp)
        omega
      · rw [hl]
        have hlen : (i.index.length : Int) - 1 = (pre.length : Int) := by
          rw [hp]; simp
        rw [hlen, Index.Record_eq_some_iff] at hr
        obtain ⟨_, rec, h1, h2⟩ := hr
        rw [hp, Int.toNat_ofNat, List.get?_eq_getElem?,
          List.getElem?_append_right (le_refl _)] at h1
        simp at h1
        rw [h2, ← h1]
  · left
    refine ⟨?_, hl⟩
    rw [hsplit] at hs ⊢
    intro x hx
    rcases List.mem_cons.mp hx with rfl | hx
    · exact hrec
    · have := (List.pairwise_cons.mp hs).1 x hx
      omega
  · right
    refine ⟨pre, a, rec :: post, by rw [hsplit, List.append_assoc]; rfl, ?_, ?_, hl⟩
    · have := hpre a (by simp)
      omega
    · rw [hsplit] at hs
      have hs2 := (List.pairwise_append.mp hs).2.1
      intro y hy
      rcases List.mem_cons.mp hy with rfl | hy
      · exact hrec
      · have := (List.pairwise_cons.mp hs2).1 y hy
        omega

/-- For outer links 0, 0, 2, 2, 5: the value 3 resolves to local index 3, a
value below all links to Null, a value at or above the greatest to the last
record. -/
theorem LinkRevSpec_Lookup_five :
    LinkRevSpec.Lookup 3 fiveIndex = some (fiveIndex.Record 3, none) ∧
    LinkRevSpec.Lookup (-1) fiveIndex = some (some fiveIndex.Null, none) ∧
    LinkRevSpec.Lookup 5 fiveIndex = some (fiveIndex.Record 4, none) ∧
    LinkRevSpec.Lookup 9 fiveIndex = some (fiveIndex.Record 4, none) := by
  decide

/-- The test of the loop body of `NodeIdRevSpec.Lookup` (length comparison,
then equality with the truncated identifier) is the prefix test. -/
theorem idMatches_iff (f : IdFormat) (wantid : NodeId) (rec : record) :
    idMatches f wantid rec = true ↔
      (wantid.length ≤ (f.NewNodeId rec.NodeId).length ∧
        wantid = (f.NewNodeId rec.NodeId).take wantid.length) := by
  unfold idMatches
  rw [List.isPrefixOf_iff_prefix, List.prefix_iff_eq_take]
  constructor
  · intro h
    refine ⟨?_, h⟩
    have := congrArg List.length h
    rw [List.length_take] at this
    omega
  · exact fun h => h.2

/-- One iteration of the loop of `NodeIdRevSpec.Lookup`. -/
theorem NodeIdRevSpec_loop_cons (f : IdFormat) (wantid : NodeId) (j : Nat) (rec : record)
    (rest : List record) (st : NodeIdScan) :
    NodeIdRevSpec.loop f wantid j (rec :: rest) st =
      NodeIdRevSpec.loop f wantid (j + 1) rest
        (if idMatches f wantid rec = true then
          { i := (j : Int), found := true,
            err := if st.found = true then some Error.ErrRevisionAmbiguous else st.err }
        else st) := by
  rw [NodeIdRevSpec.loop]
  by_cases hm : idMatches f wantid rec = true
  · obtain ⟨h1, h2⟩ := (idMatches_iff f wantid rec).mp hm
    simp only [hm, if_true, h1]
    rw [if_pos h2]
  · have hm' := hm
    rw [idMatches_iff] at hm'
    simp only [hm, Bool.false_eq_true, if_false]
    by_cases h1 : wantid.length ≤ (f.NewNodeId rec.NodeId).length
    · have h2 : ¬ (wantid = (f.NewNodeId rec.NodeId).take wantid.length) :=
        fun h2 => hm' ⟨h1, h2⟩
      simp only [h1, if_true]
      rw [if_neg h2]
    · simp only [h1, if_false]

/-- The loop of `NodeIdRevSpec.Lookup` in terms of the number `c` of matching
records among those it scans: none leaves the variables as they were; with
one or more, `i` is the position of a matching record, `found` is set, and
`err` is `ErrRevisionAmbiguous` when a match was found before or `c ≥ 2`. -/
theorem NodeIdRevSpec_loop_spec (f : IdFormat) (wantid : NodeId) :
    ∀ (rest : List record) (j : Nat) (st : NodeIdScan),
      (rest.countP (idMatches f wantid) = 0 →
        NodeIdRevSpec.loop f wantid j rest st = st) ∧
      (1 ≤ rest.countP (idMatches f wantid) →
        ∃ k rec, rest.get? k = some rec ∧ idMatches f wantid rec = true ∧
          NodeIdRevSpec.loop f wantid j rest st =
            { i := ((j + k : Nat) : Int), found := true,
              err := if st.found = true ∨ 2 ≤ rest.countP (idMatches f wantid)
                then some Error.ErrRevisionAmbiguous else st.err }) := by
  intro rest
  induction rest with
  | nil =>
    intro j st
    exact ⟨fun _ => rfl, fun h => by simp at h⟩
  | cons a t ih =>
    intro j st
    rw [NodeIdRevSpec_loop_cons]
    by_cases hm : idMatches f wantid a = true
    · rw [List.countP_cons_of_pos _ _ hm]
      simp only [hm, if_true]
      refine ⟨fun h => by omega, fun _ => ?_⟩
      by_cases hc : t.countP (idMatches f wantid) = 0
      · refine ⟨0, a, rfl, hm, ?_⟩
        rw [(ih (j + 1) _).1 hc, hc]
        simp
      · obtain ⟨k, rec, h1, h2, h3⟩ := (ih (j + 1)
          { i := (j : Int), found := true,
            err := if st.found = true then some Error.ErrRevisionAmbiguous else st.err }).2
          (by omega)
        refine ⟨k + 1, rec, h1, h2, ?_⟩
        rw [h3]
        have e : j + 1 + k = j + (k + 1) := by omega
        have hc2 : 2 ≤ t.countP (idMatches f wantid) + 1 := by omega
        simp [e, hc2]
    · rw [List.countP_cons_of_neg _ _ hm]
      simp only [hm, Bool.false_eq_true, if_false]
      refine ⟨(ih (j + 1) st).1, fun hc => ?_⟩
      obtain ⟨k, rec, h1, h2, h3⟩ := (ih (j + 1) st).2 hc
      refine ⟨k + 1, rec, h1, h2, ?_⟩
      rw [h3]
      have e : j + 1 + k = j + (k + 1) := by omega
      rw [e]

/-- C3: for a well-formed hash or prefix string, parsed to `wantid`,
`NodeIdRevSpec.Lookup` decides by the number of records whose identifier has
`wantid` as a prefix: none gives no Record and the not-found error; exactly
one gives that Record (a Record of the Index that matches) and no error; two
or more give `ErrRevisionAmbiguous`. -/
theorem NodeIdRevSpec_Lookup_spec (f : IdFormat) (hash : String) (rv : Index)
    (wantid : NodeId) (h : f.NewId hash = .ok wantid) :
    (rv.index.countP (idMatches f wantid) = 0 →
      NodeIdRevSpec.Lookup f hash rv = some (none, some Error.ErrRevNotFound)) ∧
    (rv.index.countP (idMatches f wantid) = 1 →
      ∃ r, NodeIdRevSpec.Lookup f hash rv = some (some r, none) ∧
        rv.Record r.i = some r ∧ idMatches f wantid r.record = true) ∧
    (2 ≤ rv.index.countP (idMatches f wantid) →
      ∃ r, NodeIdRevSpec.Lookup f hash rv = some (r, some Error.ErrRevisionAmbiguous)) := by
  have hspec := NodeIdRevSpec_loop_spec f wantid rv.index 0
    { i := -1, found := false, err := none }
  have hsome : 1 ≤ rv.index.countP (idMatches f wantid) →
      ∃ r, rv.Record r.i = some r ∧ idMatches f wantid r.record = true ∧
        NodeIdRevSpec.Lookup f hash rv =
          some (some r, if 2 ≤ rv.index.countP (idMatches f wantid)
            then some Error.ErrRevisionAmbiguous else none) := by
    intro hc
    obtain ⟨k, rec, h1, h2, h3⟩ := hspec.2 hc
    have hrec : rv.Record ((0 + k : Nat) : Int) = some ⟨((0 + k : Nat) : Int), rec, rv⟩ := by
      rw [Index.Record_eq_some_iff]
      refine ⟨by omega, rec, ?_, rfl⟩
      simpa using h1
    refine ⟨⟨((0 + k : Nat) : Int), rec, rv⟩, hrec, h2, ?_⟩
    unfold NodeIdRevSpec.Lookup
    simp only [h, h3]
    have hne : ¬ (((0 + k : Nat) : Int) = -1) := by omega
    rw [if_neg hne, hrec]
    simp
  refine ⟨fun hc => ?_, fun hc => ?_, fun hc => ?_⟩
  · unfold NodeIdRevSpec.Lookup
    simp only [h, hspec.1 hc, if_true]
  · obtain ⟨r, h1, h2, h3⟩ := hsome (by omega)
    refine ⟨r, ?_, h1, h2⟩
    rw [h3, hc]
    simp
  · obtain ⟨r, _, _, h3⟩ := hsome (by omega)
    refine ⟨some r, ?_⟩
    rw [h3, if_pos hc]

/-- C3 on the Index of five records: the prefix `2b` matches one record and
resolves to it, `ff` matches none, `1a` matches two. -/
theorem NodeIdRevSpec_Lookup_spec_witness :
    (∃ r, NodeIdRevSpec.Lookup hexFormat "2b" fiveIndex = some (some r, none) ∧
        fiveIndex.Record r.i = some r ∧ idMatches hexFormat [0x2b] r.record = true) ∧
    NodeIdRevSpec.Lookup hexFormat "ff" fiveIndex = some (none, some Error.ErrRevNotFound) ∧
    (∃ r, NodeIdRevSpec.Lookup hexFormat "1a" fiveIndex =
        some (r, some Error.ErrRevisionAmbiguous)) :=
  ⟨(NodeIdRevSpec_Lookup_spec hexFormat "2b" fiveIndex [0x2b] rfl).2.1 (by decide),
   (NodeIdRevSpec_Lookup_spec hexFormat "ff" fiveIndex [0xff] rfl).1 (by decide),
   (NodeIdRevSpec_Lookup_spec hexFormat "1a" fiveIndex [0x1a] rfl).2.2 (by decide)⟩

/-- The scan of `LinkRevSpec.Lookup` never sets an error. -/
theorem LinkRevSpec_loop_no_error (want : Int) (i : Index) (r : Rec) :
    ∀ (rest : List record) (j : Nat) (res : LookupResult),
      LinkRevSpec.loop want i r j rest = some res → res.2 = none := by
  intro rest
  induction rest with
  | nil =>
    intro j res h
    simp only [LinkRevSpec.loop, Option.some.injEq] at h
    rw [← h]
  | cons a t ih =>
    intro j res h
    rw [LinkRevSpec.loop] at h
    split_ifs at h with h1 h2
    · simp only [Option.some.injEq] at h
      rw [← h]
    · rw [Option.map_eq_some'] at h
      obtain ⟨_, _, h3⟩ := h
      rw [← h3]
    · exact ih (j + 1) res h

/-- The four strategies other than `NodeIdRevSpec` return no Record when
they return an error. -/
theorem Lookup_error_no_record (i : Index) (n want : Int) (r : Option Rec) (err : Error) :
    (FileRevSpec.Lookup n i = some (r, some err) → r = none) ∧
    (LinkRevSpec.Lookup want i = some (r, some err) → r = none) ∧
    (TipRevSpec.Lookup i = some (r, some err) → r = none) ∧
    (NullRevSpec.Lookup i = some (r, some err) → r = none) := by
  refine ⟨fun h => ?_, fun h => ?_, fun h => ?_, fun h => ?_⟩
  · unfold FileRevSpec.Lookup at h
    simp only at h
    split_ifs at h <;>
      first
      | (simp only [Option.some.injEq, Prod.mk.injEq] at h
         exact h.1.symm)
      | (rw [Option.map_eq_some'] at h
         obtain ⟨_, _, h3⟩ := h
         simp at h3)
  · unfold LinkRevSpec.Lookup at h
    cases ht : i.Tip with
    | none => simp [ht] at h
    | some tip =>
      simp only [ht] at h
      have := LinkRevSpec_loop_no_error want i tip i.index 0 _ h
      simp at this
  · unfold TipRevSpec.Lookup at h
    simp only at h
    split_ifs at h with h1
    · simp only [Option.some.injEq, Prod.mk.injEq] at h
      exact h.1.symm
    · rw [Option.map_eq_some'] at h
      obtain ⟨_, _, h3⟩ := h
      simp at h3
  · simp [NullRevSpec.Lookup] at h

/-- C10: on an Index with two records matching the prefix `1a`,
`NodeIdRevSpec.Lookup` returns `ErrRevisionAmbiguous` together with a Record,
the last matching one, not a nil Record. -/
theorem NodeIdRevSpec_Lookup_ambiguous_record :
    NodeIdRevSpec.Lookup hexFormat "1a" fiveIndex =
      some (fiveIndex.Record 1, some Error.ErrRevisionAmbiguous) ∧
    fiveIndex.Record 1 = some ⟨1, mkRecord 0 [0x1a, 0x02], fiveIndex⟩ := by
  constructor <;> rfl

/-! ## Theorems: cmdcat.go -/

/-- C9: when the Record `r` resolved by outer link has `r.Linkrev` equal to
the requested revision, `LookupFile` returns `r` with no error, leaf or not,
and the manifest lookup is not invoked (its state and call count are
unchanged). -/
theorem LookupFile_exact_link {μ : Type} (f : IdFormat) (fileLog : Index) (chgId : Int)
    (g : μ → Except Error ManifestEnt × μ) (m : μ) (n : Nat) (r : Rec)
    (hr : LinkRevSpec.Lookup chgId fileLog = some (some r, none))
    (hl : (r.record.Linkrev : Int) = chgId) :
    LookupFile f fileLog chgId (counting g) (m, n) = some ((some r, none), (m, n)) := by
  unfold LookupFile
  simp only [hr, hl, if_true]

/-- C9 on the Index of five records, revision 2: the resolved Record is the
one at local index 3, whose outer link is 2. -/
theorem LookupFile_exact_link_witness :
    LookupFile hexFormat fiveIndex 2 (counting manifestAbsent) ((), 0) =
      some ((some ⟨3, mkRecord 2 [0x3c, 0x04], fiveIndex⟩, none), ((), 0)) :=
  LookupFile_exact_link hexFormat fiveIndex 2 manifestAbsent () 0
    ⟨3, mkRecord 2 [0x3c, 0x04], fiveIndex⟩ (by decide) (by decide)

/-- C8: when the Record `r` resolved by `LinkRevSpec` is not a leaf,
`LookupFile` returns `r` with no error and does not invoke the manifest
lookup; and whenever the manifest lookup is invoked (the call count changes),
`r` is a leaf whose outer link differs from the requested revision. -/
theorem LookupFile_not_leaf {μ : Type} (f : IdFormat) (fileLog : Index) (chgId : Int)
    (g : μ → Except Error ManifestEnt × μ) (m : μ) (n : Nat) (r : Rec)
    (hr : LinkRevSpec.Lookup chgId fileLog = some (some r, none)) :
    (r.IsLeaf = false →
      LookupFile f fileLog chgId (counting g) (m, n) = some ((some r, none), (m, n))) ∧
    (∀ res m' n', LookupFile f fileLog chgId (counting g) (m, n) = some (res, (m', n')) →
      n' ≠ n → r.IsLeaf = true ∧ (r.record.Linkrev : Int) ≠ chgId) := by
  constructor
  · intro hleaf
    unfold LookupFile
    by_cases hl : (r.record.Linkrev : Int) = chgId
    · simp only [hr, hl, if_true]
    · simp [hr, hl, hleaf]
  · intro res m' n' h hn
    unfold LookupFile at h
    by_cases hl : (r.record.Linkrev : Int) = chgId
    · simp only [hr, hl, if_true, Option.some.injEq, Prod.mk.injEq] at h
      exact absurd h.2.2.symm hn
    · by_cases hleaf : r.IsLeaf = true
      · exact ⟨hleaf, hl⟩
      · simp only [hr, hl, if_false, hleaf, Bool.not_false, Bool.false_eq_true, if_true,
          Bool.not_eq_true, Option.some.injEq, Prod.mk.injEq] at h
        exact absurd h.2.2.symm hn

/-- C8 on the Index of two records, revision 3: the resolved Record, at local
index 0, is named as a parent by the second record. -/
theorem LookupFile_not_leaf_witness :
    LookupFile hexFormat twoIndex 3 (counting manifestAbsent) ((), 0) =
      some ((some ⟨0, mkRecord 0 [0x1a, 0x01], twoIndex⟩, none), ((), 0)) :=
  (LookupFile_not_leaf hexFormat twoIndex 3 manifestAbsent () 0
    ⟨0, mkRecord 0 [0x1a, 0x01], twoIndex⟩ (by decide)).1 (by decide)

/-- C6, as stated, fails: on the Index of one record and revision 1 the
resolved Record is a leaf with outer link 0 < 1, yet `LookupFile` invokes the
manifest lookup (once) and returns its error. -/
theorem LookupFile_leaf_counterexample :
    LinkRevSpec.Lookup 1 oneIndex =
      some (some ⟨0, mkRecord 0 [0x1a, 0x01], oneIndex⟩, none) ∧
    Rec.IsLeaf ⟨0, mkRecord 0 [0x1a, 0x01], oneIndex⟩ = true ∧
    ((mkRecord 0 [0x1a, 0x01]).Linkrev : Int) < 1 ∧
    LookupFile hexFormat oneIndex 1 (counting manifestAbsent) ((), 0) =
      some ((some ⟨0, mkRecord 0 [0x1a, 0x01], oneIndex⟩,
        some (Error.other "file does not exist in given revision")), ((), 1)) :=
  ⟨rfl, rfl, by decide, rfl⟩

/-- C6, amended: when the Record `r` resolved by outer link has
`r.Linkrev` below the requested revision, `LookupFile` returns `r` with no
error and without invoking the manifest lookup if `r` is not a leaf; if `r`
is a leaf the manifest lookup is invoked exactly once. -/
theorem LookupFile_shortcut {μ : Type} (f : IdFormat) (fileLog : Index) (chgId : Int)
    (g : μ → Except Error ManifestEnt × μ) (m : μ) (n : Nat) (r : Rec)
    (hr : LinkRevSpec.Lookup chgId fileLog = some (some r, none))
    (hlt : (r.record.Linkrev : Int) < chgId) :
    (r.IsLeaf = false →
      LookupFile f fileLog chgId (counting g) (m, n) = some ((some r, none), (m, n))) ∧
    (r.IsLeaf = true →
      ∃ res, LookupFile f fileLog chgId (counting g) (m, n) =
        some (res, ((g m).2, n + 1))) := by
  have hl : ¬ ((r.record.Linkrev : Int) = chgId) := by omega
  constructor
  · intro hleaf
    simp [LookupFile, hr, hl, hleaf]
  · intro hleaf
    unfold LookupFile
    simp only [hr, hl, if_false, hleaf, Bool.not_true, Bool.false_eq_true, counting]
    rcases hg : (g m).1 with e | ent
    · exact ⟨_, rfl⟩
    · rcases hid : ent.Id with e | wantId
      · simp only [hid]
        exact ⟨_, rfl⟩
      · simp only [hid]
        by_cases hne : wantId = r.Id f
        · simp only [hne, ne_eq, not_true_eq_false, if_false]
          exact ⟨_, rfl⟩
        · simp only [ne_eq, hne, not_false_eq_true, if_true]
          exact ⟨_, rfl⟩

/-- C6, amended, on the Index of two records and revision 3: the resolved
Record is not a leaf and its outer link 0 is below 3. -/
theorem LookupFile_shortcut_witness :
    LookupFile hexFormat twoIndex 3 (counting (manifestWith [0xff])) ((), 0) =
      some ((some ⟨0, mkRecord 0 [0x1a, 0x01], twoIndex⟩, none), ((), 0)) :=
  (LookupFile_shortcut hexFormat twoIndex 3 (manifestWith [0xff]) () 0
    ⟨0, mkRecord 0 [0x1a, 0x01], twoIndex⟩ (by decide) (by decide)).1 (by decide)

/-- C7, as stated, fails: on the Index of two records and revision 3 the
resolved Record is not a leaf, its outer link 0 is below 3 and the manifest
entry has another identifier, yet `LookupFile` succeeds and the manifest
lookup is not invoked. -/
theorem LookupFile_non_leaf_counterexample :
    LinkRevSpec.Lookup 3 twoIndex =
      some (some ⟨0, mkRecord 0 [0x1a, 0x01], twoIndex⟩, none) ∧
    Rec.IsLeaf ⟨0, mkRecord 0 [0x1a, 0x01], twoIndex⟩ = false ∧
    ((mkRecord 0 [0x1a, 0x01]).Linkrev : Int) < 3 ∧
    [0xff] ≠ Rec.Id hexFormat ⟨0, mkRecord 0 [0x1a, 0x01], twoIndex⟩ ∧
    LookupFile hexFormat twoIndex 3 (counting (manifestWith [0xff])) ((), 0) =
      some ((some ⟨0, mkRecord 0 [0x1a, 0x01], twoIndex⟩, none), ((), 0)) :=
  ⟨rfl, rfl, by decide, by decide, rfl⟩

/-- C7, amended: when the Record `r` resolved by outer link is a leaf with
`r.Linkrev` below the requested revision and the manifest entry's identifier
differs from that of `r`, `LookupFile` invokes the manifest lookup exactly
once and fails with the manifest mismatch error. -/
theorem LookupFile_manifest_mismatch {μ : Type} (f : IdFormat) (fileLog : Index)
    (chgId : Int) (g : μ → Except Error ManifestEnt × μ) (m : μ) (n : Nat) (r : Rec)
    (ent : ManifestEnt) (wantId : NodeId)
    (hr : LinkRevSpec.Lookup chgId fileLog = some (some r, none))
    (hleaf : r.IsLeaf = true) (hlt : (r.record.Linkrev : Int) < chgId)
    (hg : (g m).1 = .ok ent) (hid : ent.Id = .ok wantId) (hne : wantId ≠ r.Id f) :
    LookupFile f fileLog chgId (counting g) (m, n) =
      some ((some r, some Error.manifestMismatch), ((g m).2, n + 1)) := by
  have hl : ¬ ((r.record.Linkrev : Int) = chgId) := by omega
  unfold LookupFile
  simp only [hr, hl, if_false, hleaf, Bool.not_true, Bool.false_eq_true, counting, hg, hid,
    ne_eq, hne, not_false_eq_true, if_true]

/-- C7, amended, on the Index of one record and revision 1, with a manifest
entry of identifier `ff`. -/
theorem LookupFile_manifest_mismatch_witness :
    LookupFile hexFormat oneIndex 1 (counting (manifestWith [0xff])) ((), 0) =
      some ((some ⟨0, mkRecord 0 [0x1a, 0x01], oneIndex⟩, some Error.manifestMismatch),
        ((), 1)) :=
  LookupFile_manifest_mismatch hexFormat oneIndex 1 (manifestWith [0xff]) () 0
    ⟨0, mkRecord 0 [0x1a, 0x01], oneIndex⟩ { Id := .ok [0xff] } [0xff]
    (by decide) (by decide) (by decide) rfl rfl (by decide)

/-! ## Theorems: filebuilder.go -/

/-- C5: for a FilePatch whose patch application succeeds, emitting `out`
(the parents of the target resolve and `MetaLen` is within the base data),
`FilePatch.Apply` returns no error exactly when the number of bytes emitted
equals the record's `FileLength` and the hash over the sorted parent
identifiers, the first `MetaLen` bytes of the base data and the emitted bytes
equals the record's identifier; a different length gives the length error,
whatever the hash, and an equal length with a different hash the hash
error. -/
theorem FilePatch_Apply_verify {σ P : Type} (f : IdFormat) (e : Engine σ P)
    (p : FilePatch P) (k : Sinks) (p1 p2 : Rec) (out : Bytes)
    (hp1 : p.rev.Parent = some p1) (hp2 : p.rev.Parent2 = some p2)
    (hm : p.MetaLen ≤ (p.baseData.length : Int))
    (ha : e.Apply p.baseData (if p.MetaLen > 0 then p.MetaLen else 0) p.patch = (out, none)) :
    ∃ err k', p.Apply f e k = some (err, k') ∧
      (err = none ↔
        (out.length = p.rev.record.FileLength ∧
          e.hashSum ((e.sortedPair (p1.Id f) (p2.Id f)).flatten ++
            p.baseData.take p.MetaLen.toNat ++ out) = p.rev.Id f)) ∧
      (out.length ≠ p.rev.record.FileLength →
        err = some (Error.lengthMismatch out.length p.rev.record.FileLength)) ∧
      (out.length = p.rev.record.FileLength →
        e.hashSum ((e.sortedPair (p1.Id f) (p2.Id f)).flatten ++
            p.baseData.take p.MetaLen.toNat ++ out) ≠ p.rev.Id f →
        err = some Error.hashMismatch) := by
  have hm' : ¬ (p.MetaLen > (p.baseData.length : Int)) := by omega
  have hhead : (if p.MetaLen > 0 then p.baseData.take p.MetaLen.toNat else []) =
      p.baseData.take p.MetaLen.toNat := by
    split_ifs with h0
    · rfl
    · have : p.MetaLen.toNat = 0 := by omega
      rw [this]
      rfl
  unfold FilePatch.Apply
  simp only [hp1, hp2, hm', if_false, ha, hhead]
  by_cases hlen : out.length = p.rev.record.FileLength
  · have hlen' : ¬ ((out.length : Int) ≠ (p.rev.record.FileLength : Int)) := by
      simp [hlen]
    by_cases hh : e.hashSum ((e.sortedPair (p1.Id f) (p2.Id f)).flatten ++
        p.baseData.take p.MetaLen.toNat ++ out) = p.rev.Id f
    · simp only [hlen', if_false, hh, ne_eq, not_true_eq_false]
      exact ⟨_, _, rfl, by simp [hlen], fun h => absurd hlen h, fun _ h => h.elim⟩
    · simp only [hlen', if_false, ne_eq, hh, not_false_eq_true, if_true]
      exact ⟨_, _, rfl, by simp [hh], fun h => absurd hlen h, fun _ _ => rfl⟩
  · have hlen' : (out.length : Int) ≠ (p.rev.record.FileLength : Int) := by
      intro h
      exact hlen (by exact_mod_cast h)
    rw [if_pos (by simpa using hlen)]
    exact ⟨_, _, rfl, by simp [hlen], fun _ => rfl, fun h => absurd h hlen⟩

/-- C5 on two patches: that of revision 0 of the chain verifies, with no
error; that of the revision with a metadata header emits 1 byte where the
record expects 6, the length error. -/
theorem FilePatch_Apply_verify_witness :
    (∃ k', chainPatch0.Apply hexFormat (editEngine chainRaw) { fileBuf := [], w := none } =
      some (none, k')) ∧
    (∃ k', metaPatch.Apply hexFormat (editEngine [metaContent]) { fileBuf := [], w := none } =
      some (some (Error.lengthMismatch 1 6), k')) := by
  constructor
  · obtain ⟨err, k', h1, h2, _, _⟩ :=
      FilePatch_Apply_verify hexFormat (editEngine chainRaw) chainPatch0
        { fileBuf := [], w := none } chainIndex.Null chainIndex.Null [97, 98]
        rfl rfl (by decide) rfl
    have herr : err = none := h2.mpr ⟨rfl, rfl⟩
    rw [herr] at h1
    exact ⟨k', h1⟩
  · obtain ⟨err, k', h1, _, h3, _⟩ :=
      FilePatch_Apply_verify hexFormat (editEngine [metaContent]) metaPatch
        { fileBuf := [], w := none } metaIndex.Null metaIndex.Null [98]
        rfl rfl (by decide) rfl
    have herr : err = some (Error.lengthMismatch 1 6) := h3 (by decide)
    rw [herr] at h1
    exact ⟨k', h1⟩

/-- A record obtained from `Index.Record` carries the index asked for and the
Index itself. -/
theorem Index.Record_fields (rv : Index) (j : Int) (r : Rec) (h : rv.Record j = some r) :
    r.i = j ∧ r.Index = rv ∧ 0 ≤ j ∧ j < (rv.index.length : Int) := by
  have hb := (Index.Record_isSome_iff rv j).mp (by rw [h]; rfl)
  rw [Index.Record_eq_some_iff] at h
  obtain ⟨_, rec, _, h2⟩ := h
  rw [h2]
  exact ⟨rfl, rfl, hb⟩

/-- No header is skipped for a base record other than the requested one. -/
theorem PreparePatch_skip_of_ne (r rsav : Rec) (d : Bytes) (h : r ≠ rsav) :
    PreparePatch.skip r rsav d = 0 := by
  unfold PreparePatch.skip
  simp [h]

/-- The loop of `PreparePatch` does not depend on the fuel once it exceeds the
local index of the record: the count `r.i + 1` that `PreparePatch` passes is
never exhausted. -/
theorem PreparePatch_loop_fuel {σ P : Type} (e : Engine σ P) (dc : DataCache σ) (rsav : Rec) :
    ∀ (fuel1 fuel2 : Nat) (r : Rec) (acc : Option P) (s : σ),
      r.i.toNat < fuel1 → r.i.toNat < fuel2 →
      PreparePatch.loop e dc rsav fuel1 r acc s = PreparePatch.loop e dc rsav fuel2 r acc s := by
  intro fuel1
  induction fuel1 with
  | zero => intro fuel2 r acc s h1; omega
  | succ a ih =>
    intro fuel2 r acc s h1 h2
    obtain ⟨b, rfl⟩ : ∃ n, fuel2 = n + 1 := ⟨fuel2 - 1, by omega⟩
    rw [PreparePatch.loop, PreparePatch.loop]
    rcases PreparePatch.data e dc r s with ⟨res, s1⟩
    cases res with
    | error err => rfl
    | ok d =>
      simp only
      split_ifs
      · rfl
      · cases e.Parse d with
        | error err1 => rfl
        | ok hunks =>
          simp only
          cases hprev : r.Prev with
          | none => rfl
          | some r' =>
            simp only
            obtain ⟨hi, _, h0, _⟩ := Index.Record_fields r.Index (r.i - 1) r' hprev
            exact ih b r' _ s1 (by omega) (by omega)

/-- In a round-trip chain the data `PreparePatch` obtains for revision `j` is
`raw j`, and the state invariant is kept. -/
theorem PreparePatch_data_of_chain {σ P : Type} {f : IdFormat} {e : Engine σ P}
    {dc : DataCache σ} {Inv : σ → Prop} {idx : Index} {content raw : Nat → Bytes}
    {delta : Nat → Option P} (hc : RoundTripChain f e dc Inv idx content raw delta)
    (j : Nat) (r : Rec) (s : σ) (hr : idx.Record (j : Int) = some r) (hs : Inv s) :
    ∃ s', PreparePatch.data e dc r s = (.ok (raw j), s') ∧ Inv s' := by
  have hi : r.i = (j : Int) := (Index.Record_fields idx j r hr).1
  obtain ⟨hget, hinv1⟩ := hc.cached s j hs
  unfold PreparePatch.data
  rw [hi]
  rcases hg : dc.Get (j : Int) s with ⟨d, s1⟩
  rw [hg] at hget hinv1
  rcases hget with hnone | hsome
  · simp only at hnone
    subst hnone
    obtain ⟨hf, hinv2⟩ := hc.fetched s1 j r hinv1 hr
    rcases hfd : e.GetData r s1 with ⟨res, s2⟩
    rw [hfd] at hf hinv2
    simp only at hf
    subst hf
    exact ⟨dc.Store (j : Int) (raw j) s2, by simp only [hfd], hc.stored s2 j hinv2⟩
  · simp only at hsome
    subst hsome
    exact ⟨s1, rfl, hinv1⟩

/-- In a round-trip chain the loop of `PreparePatch`, at revision `j` with an
accumulated patch taking content `j` to content `k`, ends at the snapshot with
a patch taking content 0 to content `k`. -/
theorem PreparePatch_loop_of_chain {σ P : Type} {f : IdFormat} {e : Engine σ P}
    {dc : DataCache σ} {Inv : σ → Prop} {idx : Index} {content raw : Nat → Bytes}
    {delta : Nat → Option P} (hc : RoundTripChain f e dc Inv idx content raw delta)
    (rsav : Rec) (k : Nat) :
    ∀ (j fuel : Nat) (r : Rec) (acc : Option P) (s : σ),
      idx.Record (j : Int) = some r → j < fuel → Inv s →
      e.Apply (content j) 0 acc = (content k, none) →
      ∃ r0 acc' s', idx.Record 0 = some r0 ∧
        PreparePatch.loop e dc rsav fuel r acc s =
          some (.ok { rev := rsav, baseData := content 0, patch := acc',
                      MetaLen := PreparePatch.skip r0 rsav (content 0) }, s') ∧
        e.Apply (content 0) 0 acc' = (content k, none) ∧ Inv s' := by
  intro j
  induction j with
  | zero =>
    intro fuel r acc s hr hfuel hs hacc
    obtain ⟨fuel', rfl⟩ : ∃ n, fuel = n + 1 := ⟨fuel - 1, by omega⟩
    obtain ⟨s', hd, hs'⟩ := PreparePatch_data_of_chain hc 0 r s hr hs
    have hbase : r.IsBase = true := (hc.snapshot 0 r hr).mpr rfl
    refine ⟨r, acc, s', hr, ?_, hacc, hs'⟩
    rw [PreparePatch.loop, hd]
    simp only [hbase, if_true, hc.raw_zero]
  | succ j ih =>
    intro fuel r acc s hr hfuel hs hacc
    obtain ⟨fuel', rfl⟩ : ∃ n, fuel = n + 1 := ⟨fuel - 1, by omega⟩
    obtain ⟨s', hd, hs'⟩ := PreparePatch_data_of_chain hc (j + 1) r s hr hs
    obtain ⟨hi, hidx, _, hlt⟩ := Index.Record_fields idx ((j + 1 : Nat) : Int) r hr
    have hlt' : j + 1 < idx.index.length := by omega
    have hbase : ¬ (r.IsBase = true) := fun h => by
      have := (hc.snapshot (j + 1) r hr).mp h
      omega
    have hparse := hc.parse (j + 1) (by omega) hlt'
    have hstep := hc.step (j + 1) (by omega) hlt'
    rw [Nat.add_sub_cancel] at hstep
    have hprev : r.Prev = idx.Record (j : Int) := by
      unfold Rec.Prev
      rw [hi, hidx]
      congr 1
      omega
    obtain ⟨r', hr'⟩ : ∃ r', idx.Record (j : Int) = some r' := by
      rw [← Option.isSome_iff_exists, Index.Record_isSome_iff]
      omega
    have hacc' : ∀ a : Option P, e.Apply (content (j + 1)) 0 a = (content k, none) →
        e.Apply (content j) 0
          (match a with
            | none => delta (j + 1)
            | some _ => e.JoinPatches (delta (j + 1)) a) = (content k, none) := by
      intro a ha
      cases a with
      | none =>
        simp only
        rw [hc.absent] at ha
        rw [hstep, ← ha]
      | some a =>
        simp only
        rw [hc.join (content j) (delta (j + 1)) (some a) (content (j + 1)) hstep]
        exact ha
    obtain ⟨r0, acc', s'', h0, hloop, happ, hs''⟩ :=
      ih fuel' r' _ s' hr' (by omega) hs' (hacc' acc hacc)
    refine ⟨r0, acc', s'', h0, ?_, happ, hs''⟩
    rw [PreparePatch.loop, hd]
    simp only [hbase, Bool.false_eq_true, if_false, hparse, hprev, hr']
    exact hloop

/-- The edit engine composes patches as the round trip requires: applying a
joined patch is applying the older patch, then the newer. -/
theorem editEngine_join (raw : List Bytes) (base : Bytes) (older newer : Option (List Edit))
    (mid : Bytes) (h : (editEngine raw).Apply base 0 older = (mid, none)) :
    (editEngine raw).Apply base 0 ((editEngine raw).JoinPatches older newer) =
      (editEngine raw).Apply mid 0 newer := by
  simp only [editEngine, Int.toNat_zero, List.drop_zero, Prod.mk.injEq, and_true] at h ⊢
  cases older with
  | none =>
    simp only at h
    subst h
    cases newer <;> rfl
  | some a =>
    simp only at h
    subst h
    cases newer with
    | none => rfl
    | some b => simp only [List.foldl_append]

/-- The edit engine leaves the base unchanged under the absent patch. -/
theorem editEngine_absent (raw : List Bytes) (base : Bytes) :
    (editEngine raw).Apply base 0 none = (base, none) := by
  simp [editEngine]

/-- C4, amended: in a round-trip chain, `FileBuilder.Build` on revision `k`
returns exactly content `k` and no error, and leaves it in the buffer,
provided no metadata header is skipped: for `k = 0` the skip length computed
for the snapshot is 0 (for `k ≥ 1` it always is). -/
theorem FileBuilder_Build_round_trip {σ P : Type} (f : IdFormat) (e : Engine σ P)
    (p : FileBuilder σ) (Inv : σ → Prop) (idx : Index) (content raw : Nat → Bytes)
    (delta : Nat → Option P) (hc : RoundTripChain f e p.cache Inv idx content raw delta)
    (k : Nat) (r : Rec) (s : σ) (hr : idx.Record (k : Int) = some r) (hs : Inv s)
    (hmeta : k = 0 → PreparePatch.skip r r (content 0) = 0) :
    ∃ s', p.Build f e r s = some ((some (content k), none), content k, s') := by
  obtain ⟨hi, _, _, _⟩ := Index.Record_fields idx (k : Int) r hr
  obtain ⟨r0, acc, s', h0, hloop, happ, _⟩ :=
    PreparePatch_loop_of_chain hc r k k (k + 1) r none s hr (by omega) hs (hc.absent _)
  have hskip : PreparePatch.skip r0 r (content 0) = 0 := by
    by_cases hk : k = 0
    · subst hk
      have : r0 = r := by
        have h0' : idx.Record ((0 : Nat) : Int) = some r0 := h0
        rw [hr] at h0'
        exact (Option.some.inj h0').symm
      rw [this]
      exact hmeta rfl
    · apply PreparePatch_skip_of_ne
      intro hr0
      have := (Index.Record_fields idx 0 r0 h0).1
      rw [hr0, hi] at this
      omega
  obtain ⟨p1, p2, hp1, hp2, hid⟩ := hc.ident k r hr
  have hlen := hc.length k r hr
  have hprep : p.PreparePatch e r s =
      some (.ok { rev := r, baseData := content 0, patch := acc, MetaLen := 0 }, s') := by
    unfold FileBuilder.PreparePatch
    have hfuel : r.i.toNat + 1 = k + 1 := by rw [hi]; simp
    rw [hfuel, hloop, hskip]
  have happly : FilePatch.Apply f e
      ({ rev := r, baseData := content 0, patch := acc, MetaLen := 0 } : FilePatch P)
      { fileBuf := p.fileBuf, w := none } =
      some (none, { fileBuf := content k, w := none }) := by
    unfold FilePatch.Apply
    have hneg : ¬ ((0 : Int) > ((content 0).length : Int)) := by omega
    have hlen' : ¬ (((content k).length : Int) ≠ (r.record.FileLength : Int)) := by
      rw [hlen]
      simp
    simp only [hp1, hp2, hneg, if_false, gt_iff_lt, lt_self_iff_false, happ, hlen',
      List.append_nil, hid, ne_eq, not_true_eq_false, Sinks.write, List.nil_append]
  refine ⟨s', ?_⟩
  unfold FileBuilder.Build
  simp only [hprep, happly]

/-- The records of the chain of three revisions. -/
theorem chainIndex_Record (j : Nat) (r : Rec) (h : chainIndex.Record (j : Int) = some r) :
    (j = 0 ∧ r = ⟨0, chainRec0, chainIndex⟩) ∨ (j = 1 ∧ r = ⟨1, chainRec1, chainIndex⟩) ∨
      (j = 2 ∧ r = ⟨2, chainRec2, chainIndex⟩) := by
  obtain ⟨_, _, _, hlt⟩ := Index.Record_fields _ _ _ h
  have hj : j < 3 := by
    have : chainIndex.index.length = 3 := rfl
    omega
  interval_cases j
  · left
    have h' : chainIndex.Record ((0 : Nat) : Int) = some ⟨0, chainRec0, chainIndex⟩ := rfl
    rw [h] at h'
    exact ⟨rfl, Option.some.inj h'⟩
  · right; left
    have h' : chainIndex.Record ((1 : Nat) : Int) = some ⟨1, chainRec1, chainIndex⟩ := rfl
    rw [h] at h'
    exact ⟨rfl, Option.some.inj h'⟩
  · right; right
    have h' : chainIndex.Record ((2 : Nat) : Int) = some ⟨2, chainRec2, chainIndex⟩ := rfl
    rw [h] at h'
    exact ⟨rfl, Option.some.inj h'⟩

/-- The chain of three revisions is a round-trip chain for the edit engine
and a builder without cache. -/
theorem chainIndex_roundTrip :
    RoundTripChain hexFormat (editEngine chainRaw) plainBuilder.cache (fun _ => True)
      chainIndex chainContent (fun j => chainRaw.getD j []) chainDelta where
  snapshot := by
    intro j r h
    rcases chainIndex_Record j r h with ⟨rfl, rfl⟩ | ⟨rfl, rfl⟩ | ⟨rfl, rfl⟩ <;> decide
  raw_zero := rfl
  parse := by
    intro j h0 hlt
    have hj : j < 3 := hlt
    interval_cases j <;> rfl
  step := by
    intro j h0 hlt
    have hj : j < 3 := hlt
    interval_cases j <;> rfl
  length := by
    intro j r h
    rcases chainIndex_Record j r h with ⟨rfl, rfl⟩ | ⟨rfl, rfl⟩ | ⟨rfl, rfl⟩ <;> rfl
  ident := by
    intro j r h
    rcases chainIndex_Record j r h with ⟨rfl, rfl⟩ | ⟨rfl, rfl⟩ | ⟨rfl, rfl⟩
    · exact ⟨chainIndex.Null, chainIndex.Null, rfl, rfl, by decide⟩
    · exact ⟨⟨0, chainRec0, chainIndex⟩, chainIndex.Null, rfl, rfl, by decide⟩
    · exact ⟨⟨1, chainRec1, chainIndex⟩, chainIndex.Null, rfl, rfl, by decide⟩
  join := editEngine_join chainRaw
  absent := editEngine_absent chainRaw
  cached := fun _ _ _ => ⟨Or.inl rfl, trivial⟩
  fetched := by
    intro s j r _ h
    refine ⟨?_, trivial⟩
    rcases chainIndex_Record j r h with ⟨rfl, rfl⟩ | ⟨rfl, rfl⟩ | ⟨rfl, rfl⟩ <;> rfl
  stored := fun _ _ _ => trivial

/-- C4, amended, on the chain of three revisions: building revision 2 returns
its content `xbc`. -/
theorem FileBuilder_Build_round_trip_witness :
    ∃ s', plainBuilder.Build hexFormat (editEngine chainRaw) ⟨2, chainRec2, chainIndex⟩ () =
      some ((some [120, 98, 99], none), [120, 98, 99], s') :=
  FileBuilder_Build_round_trip hexFormat (editEngine chainRaw) plainBuilder (fun _ => True)
    chainIndex chainContent (fun j => chainRaw.getD j []) chainDelta chainIndex_roundTrip
    2 ⟨2, chainRec2, chainIndex⟩ () rfl trivial (by decide)

/-- The chain of one revision storing `metaContent` is a round-trip chain for
the edit engine and a builder without cache. -/
theorem metaIndex_roundTrip :
    RoundTripChain hexFormat (editEngine [metaContent]) plainBuilder.cache (fun _ => True)
      metaIndex (fun _ => metaContent) (fun _ => metaContent) (fun _ => none) := by
  have hrec : ∀ (j : Nat) (r : Rec), metaIndex.Record (j : Int) = some r →
      j = 0 ∧ r = ⟨0, metaRec, metaIndex⟩ := by
    intro j r h
    obtain ⟨_, _, _, hlt⟩ := Index.Record_fields _ _ _ h
    have hj : j = 0 := by
      have : metaIndex.index.length = 1 := rfl
      omega
    subst hj
    have h' : metaIndex.Record ((0 : Nat) : Int) = some ⟨0, metaRec, metaIndex⟩ := rfl
    rw [h] at h'
    exact ⟨rfl, Option.some.inj h'⟩
  refine
    { snapshot := ?_, raw_zero := rfl, parse := ?_, step := ?_, length := ?_, ident := ?_,
      join := editEngine_join [metaContent], absent := editEngine_absent [metaContent],
      cached := fun _ _ _ => ⟨Or.inl rfl, trivial⟩, fetched := ?_,
      stored := fun _ _ _ => trivial }
  · intro j r h
    obtain ⟨rfl, rfl⟩ := hrec j r h
    decide
  · intro j h0 hlt
    have : metaIndex.index.length = 1 := rfl
    omega
  · intro j h0 hlt
    have : metaIndex.index.length = 1 := rfl
    omega
  · intro j r h
    obtain ⟨rfl, rfl⟩ := hrec j r h
    rfl
  · intro j r h
    obtain ⟨rfl, rfl⟩ := hrec j r h
    exact ⟨metaIndex.Null, metaIndex.Null, rfl, rfl, by decide⟩
  · intro s j r _ h
    obtain ⟨rfl, rfl⟩ := hrec j r h
    exact ⟨rfl, trivial⟩

/-- C4, as stated, fails: the chain of one revision storing `metaContent`,
whose record has the length and identifier of that content, is a round-trip
chain, yet building revision 0 skips the 5 header bytes, emits 1 byte where 6
are expected and returns the length error, not the content. -/
theorem FileBuilder_Build_round_trip_counterexample :
    RoundTripChain hexFormat (editEngine [metaContent]) plainBuilder.cache (fun _ => True)
      metaIndex (fun _ => metaContent) (fun _ => metaContent) (fun _ => none) ∧
    metaIndex.Record 0 = some ⟨0, metaRec, metaIndex⟩ ∧
    plainBuilder.Build hexFormat (editEngine [metaContent]) ⟨0, metaRec, metaIndex⟩ () =
      some ((none, some (Error.lengthMismatch 1 6)), [98], ()) :=
  ⟨metaIndex_roundTrip, rfl, rfl⟩

/-! ## Theorems: lookup.go, tip and outer link -/

/-- A list splits at a position it has an element at. -/
theorem list_split_at {α : Type} (l : List α) :
    ∀ (j : Nat) (x : α), l.get? j = some x →
      l = l.take j ++ x :: l.drop (j + 1) ∧ (l.take j).length = j := by
  induction l with
  | nil => intro j x h; simp at h
  | cons a t ih =>
    intro j x h
    cases j with
    | zero =>
      simp only [List.get?_cons_zero, Option.some.injEq] at h
      subst h
      simp
    | succ n =>
      simp only [List.get?_cons_succ] at h
      obtain ⟨h1, h2⟩ := ih n x h
      constructor
      · simp only [List.take_succ_cons, List.drop_succ_cons, List.cons_append]
        rw [← h1]
      · simp only [List.take_succ_cons, List.length_cons, h2]

/-- An element of the first `j` elements of a list is at a position below
`j`. -/
theorem mem_take_position {α : Type} (l : List α) :
    ∀ (j : Nat) (y : α), y ∈ l.take j → ∃ j', j' < j ∧ l.get? j' = some y := by
  induction l with
  | nil => intro j y h; simp at h
  | cons a t ih =>
    intro j y h
    cases j with
    | zero => simp at h
    | succ n =>
      simp only [List.take_succ_cons, List.mem_cons] at h
      rcases h with rfl | h
      · exact ⟨0, by omega, rfl⟩
      · obtain ⟨j', h1, h2⟩ := ih n y h
        exact ⟨j' + 1, by omega, by simpa using h2⟩

/-- C13: `TipRevSpec.Lookup` fails with `ErrRevisionNotFound` on an empty
Index, returns the last Record (local index `len - 1`) with no error on a
non-empty one, and is `FileRevSpec(-1).Lookup` on every Index. -/
theorem TipRevSpec_Lookup_spec (i : Index) :
    (i.index = [] →
      TipRevSpec.Lookup i = some (none, some Error.ErrRevisionNotFound)) ∧
    (i.index ≠ [] →
      ∃ r, i.Record ((i.index.length : Int) - 1) = some r ∧
        r.i = (i.index.length : Int) - 1 ∧ TipRevSpec.Lookup i = some (some r, none)) ∧
    TipRevSpec.Lookup i = FileRevSpec.Lookup (-1) i := by
  refine ⟨fun h => ?_, fun h => ?_, ?_⟩
  · simp [TipRevSpec.Lookup, h]
  · obtain ⟨r, _, hr⟩ := Index.Tip_of_ne_nil i h
    have hlen : i.index.length ≠ 0 := fun h0 => h (List.length_eq_zero.mp h0)
    refine ⟨r, hr, (Index.Record_fields _ _ _ hr).1, ?_⟩
    simp only [TipRevSpec.Lookup, hlen, if_false, hr, Option.map_some']
  · by_cases h : i.index.length = 0
    · simp [TipRevSpec.Lookup, FileRevSpec.Lookup, h]
    · have h1 : ¬ ((i.index.length : Int) - 1 < 0 ∨
          (i.index.length : Int) - 1 ≥ (i.index.length : Int)) := by omega
      have h2 : (-1 : Int) + (i.index.length : Int) = (i.index.length : Int) - 1 := by omega
      simp only [TipRevSpec.Lookup, FileRevSpec.Lookup, h, if_false, Int.reduceNeg,
        Int.reduceLT, if_true, h2]
      rw [if_neg h1]

/-- C13 on the empty Index and on the Index of five records, whose tip is at
local index 4. -/
theorem TipRevSpec_Lookup_spec_witness :
    TipRevSpec.Lookup emptyIndex = some (none, some Error.ErrRevisionNotFound) ∧
    (∃ r, fiveIndex.Record 4 = some r ∧ r.i = 4 ∧
      TipRevSpec.Lookup fiveIndex = some (some r, none)) :=
  ⟨(TipRevSpec_Lookup_spec emptyIndex).1 rfl,
   (TipRevSpec_Lookup_spec fiveIndex).2.1 (by decide)⟩

/-- C14: on a non-empty Index, whatever the order of the outer links,
`LinkRevSpec(v).Lookup` returns a Record and no error: Null when the first
record's outer link exceeds `v`; the Record at local index `j - 1` when `j > 0`
is the smallest index whose outer link exceeds `v`; the last Record when no
outer link exceeds `v`. -/
theorem LinkRevSpec_Lookup_unordered (want : Int) (i : Index) (h : i.index ≠ []) :
    (∃ r, LinkRevSpec.Lookup want i = some (some r, none)) ∧
    (∀ rec post, i.index = rec :: post → (rec.Linkrev : Int) > want →
      LinkRevSpec.Lookup want i = some (some i.Null, none)) ∧
    (∀ (j : Nat) rec, 0 < j → i.index.get? j = some rec → (rec.Linkrev : Int) > want →
      (∀ j' rec', j' < j → i.index.get? j' = some rec' → ¬ ((rec'.Linkrev : Int) > want)) →
      ∃ r, i.Record ((j : Int) - 1) = some r ∧ r.i = (j : Int) - 1 ∧
        LinkRevSpec.Lookup want i = some (some r, none)) ∧
    ((∀ rec ∈ i.index, ¬ ((rec.Linkrev : Int) > want)) →
      ∃ r, i.Record ((i.index.length : Int) - 1) = some r ∧
        r.i = (i.index.length : Int) - 1 ∧
        LinkRevSpec.Lookup want i = some (some r, none)) := by
  obtain ⟨tip, htip, htip'⟩ := Index.Tip_of_ne_nil i h
  refine ⟨?_, ?_, ?_, ?_⟩
  · rcases LinkRevSpec_Lookup_scan want i h with
      ⟨_, r, _, hl⟩ | ⟨_, _, _, _, hl⟩ | ⟨_, _, _, _, _, _, _, hl⟩
    · exact ⟨r, hl⟩
    · exact ⟨_, hl⟩
    · exact ⟨_, hl⟩
  · intro rec post hsplit hrec
    have := LinkRevSpec_loop_first want i tip [] rec post 0 (by simp) hrec
    simp only [LinkRevSpec.Lookup, htip]
    rw [hsplit]
    simpa using this
  · intro j rec hj hget hrec hmin
    obtain ⟨hsplit, hlen⟩ := list_split_at i.index j rec hget
    have hpre : ∀ y ∈ i.index.take j, ¬ ((y.Linkrev : Int) > want) := by
      intro y hy
      obtain ⟨j', h1, h2⟩ := mem_take_position i.index j y hy
      exact hmin j' y h1 h2
    have hloop := LinkRevSpec_loop_first want i tip (i.index.take j) rec
      (i.index.drop (j + 1)) 0 hpre hrec
    rw [← hsplit, hlen] at hloop
    have hne : ¬ (0 + j = 0) := by omega
    have hidx : (((0 + j : Nat) : Int) - 1) = (j : Int) - 1 := by simp
    rw [if_neg hne, hidx] at hloop
    have hjlt : j < i.index.length := by
      by_contra hge
      have : i.index.get? j = none := List.get?_eq_none.mpr (by omega)
      rw [this] at hget
      exact Option.noConfusion hget
    obtain ⟨r, hr⟩ : ∃ r, i.Record ((j : Int) - 1) = some r := by
      rw [← Option.isSome_iff_exists, Index.Record_isSome_iff]
      omega
    refine ⟨r, hr, (Index.Record_fields _ _ _ hr).1, ?_⟩
    simp only [LinkRevSpec.Lookup, htip, hloop, hr, Option.map_some']
  · intro hall
    refine ⟨tip, htip', (Index.Record_fields _ _ _ htip').1, ?_⟩
    simp only [LinkRevSpec.Lookup, htip]
    exact LinkRevSpec_loop_none want i tip i.index 0 hall

/-- C14 on the Index of two records, with outer links 0 and 5, and value 3:
the record at index 1 is the first to exceed it, the Record at index 0 is
returned. -/
theorem LinkRevSpec_Lookup_unordered_witness :
    ∃ r, twoIndex.Record 0 = some r ∧ r.i = 0 ∧
      LinkRevSpec.Lookup 3 twoIndex = some (some r, none) :=
  (LinkRevSpec_Lookup_unordered 3 twoIndex (by decide)).2.2.1 1
    { mkRecord 5 [0x2b, 0x02] with Parent1 := some 0 } (by decide) rfl (by decide)
    (by
      intro j' rec' hj' hget
      have h0 : j' = 0 := by omega
      subst h0
      have : rec' = mkRecord 0 [0x1a, 0x01] := by
        have h' : twoIndex.index.get? 0 = some (mkRecord 0 [0x1a, 0x01]) := rfl
        rw [hget] at h'
        exact Option.some.inj h'
      subst this
      decide)

/-- The Record the scan of `LinkRevSpec.Lookup` returns from position `j` on
has local index at least `j - 1`. -/
theorem LinkRevSpec_loop_index_ge (want : Int) (i : Index) (tip : Rec)
    (htip : tip.i = (i.index.length : Int) - 1) :
    ∀ (rest : List record) (j : Nat) (r : Rec), j + rest.length = i.index.length →
      LinkRevSpec.loop want i tip j rest = some (some r, none) → (j : Int) - 1 ≤ r.i := by
  intro rest
  induction rest with
  | nil =>
    intro j r hlen h
    simp only [LinkRevSpec.loop, Option.some.injEq, Prod.mk.injEq, and_true] at h
    rw [← h, htip]
    simp only [List.length_nil] at hlen
    omega
  | cons a t ih =>
    intro j r hlen h
    rw [LinkRevSpec.loop] at h
    split_ifs at h with h1 h2
    · simp only [Option.some.injEq, Prod.mk.injEq, and_true] at h
      rw [← h, h2]
      simp [Index.Null]
    · rw [Option.map_eq_some'] at h
      obtain ⟨r', hr', h3⟩ := h
      simp only [Prod.mk.injEq, Option.some.injEq, and_true] at h3
      rw [← h3, (Index.Record_fields _ _ _ hr').1]
    · have := ih (j + 1) r (by simp only [List.length_cons] at hlen; omega) h
      push_cast at this
      omega

/-- The scan of `LinkRevSpec.Lookup` is monotone in the requested value. -/
theorem LinkRevSpec_loop_mono (v v' : Int) (hv : v ≤ v') (i : Index) (tip : Rec)
    (htip : tip.i = (i.index.length : Int) - 1) :
    ∀ (rest : List record) (j : Nat) (r1 r2 : Rec), j + rest.length = i.index.length →
      LinkRevSpec.loop v i tip j rest = some (some r1, none) →
      LinkRevSpec.loop v' i tip j rest = some (some r2, none) → r1.i ≤ r2.i := by
  intro rest
  induction rest with
  | nil =>
    intro j r1 r2 _ h1 h2
    simp only [LinkRevSpec.loop, Option.some.injEq, Prod.mk.injEq, and_true] at h1 h2
    rw [← h1, ← h2]
  | cons a t ih =>
    intro j r1 r2 hlen h1 h2
    have hlen' : j + 1 + t.length = i.index.length := by
      simp only [List.length_cons] at hlen
      omega
    by_cases ha' : (a.Linkrev : Int) > v'
    · have ha : (a.Linkrev : Int) > v := by omega
      rw [LinkRevSpec.loop, if_pos ha] at h1
      rw [LinkRevSpec.loop, if_pos ha'] at h2
      rw [h1] at h2
      simp only [Option.some.injEq, Prod.mk.injEq, and_true] at h2
      rw [h2]
    · rw [LinkRevSpec.loop, if_neg ha'] at h2
      have hge := LinkRevSpec_loop_index_ge v' i tip htip t (j + 1) r2 hlen' h2
      push_cast at hge
      by_cases ha : (a.Linkrev : Int) > v
      · rw [LinkRevSpec.loop, if_pos ha] at h1
        split_ifs at h1 with h0
        · simp only [Option.some.injEq, Prod.mk.injEq, and_true] at h1
          rw [← h1]
          simp only [Index.Null]
          omega
        · rw [Option.map_eq_some'] at h1
          obtain ⟨r', hr', h3⟩ := h1
          simp only [Prod.mk.injEq, Option.some.injEq, and_true] at h3
          rw [← h3, (Index.Record_fields _ _ _ hr').1]
          omega
      · rw [LinkRevSpec.loop, if_neg ha] at h1
        exact ih (j + 1) r1 r2 hlen' h1 h2

/-- C20: on a non-empty Index, whatever the order of the outer links, for
`v ≤ v'` both `LinkRevSpec(v).Lookup` and `LinkRevSpec(v').Lookup` return a
Record, and the local index of the first (Null counting as -1) is at most
that of the second. -/
theorem LinkRevSpec_Lookup_monotone (v v' : Int) (i : Index) (h : i.index ≠ [])
    (hv : v ≤ v') :
    ∃ r1 r2, LinkRevSpec.Lookup v i = some (some r1, none) ∧
      LinkRevSpec.Lookup v' i = some (some r2, none) ∧ r1.i ≤ r2.i ∧
      i.Null.i = -1 := by
  obtain ⟨tip, htip, htip'⟩ := Index.Tip_of_ne_nil i h
  have hti : tip.i = (i.index.length : Int) - 1 := (Index.Record_fields _ _ _ htip').1
  have hex : ∀ w, ∃ r, LinkRevSpec.Lookup w i = some (some r, none) := by
    intro w
    rcases LinkRevSpec_Lookup_scan w i h with
      ⟨_, r, _, hl⟩ | ⟨_, _, _, _, hl⟩ | ⟨_, _, _, _, _, _, _, hl⟩
    · exact ⟨r, hl⟩
    · exact ⟨_, hl⟩
    · exact ⟨_, hl⟩
  obtain ⟨r1, h1⟩ := hex v
  obtain ⟨r2, h2⟩ := hex v'
  refine ⟨r1, r2, h1, h2, ?_, rfl⟩
  simp only [LinkRevSpec.Lookup, htip] at h1 h2
  exact LinkRevSpec_loop_mono v v' hv i tip hti i.index 0 r1 r2 (by simp) h1 h2

/-- C20 on an Index whose outer links are not ordered, for the values 1
and 4. -/
theorem LinkRevSpec_Lookup_monotone_witness :
    ∃ r1 r2, LinkRevSpec.Lookup 1 unorderedIndex = some (some r1, none) ∧
      LinkRevSpec.Lookup 4 unorderedIndex = some (some r2, none) ∧ r1.i ≤ r2.i ∧
      unorderedIndex.Null.i = -1 :=
  LinkRevSpec_Lookup_monotone 1 4 unorderedIndex (by decide) (by decide)

/-! ## Theorems: results that come with an error -/

/-- `LinkRevSpec.Lookup` never returns an error. -/
theorem LinkRevSpec_Lookup_no_error (want : Int) (i : Index) (res : LookupResult)
    (h : LinkRevSpec.Lookup want i = some res) : res.2 = none := by
  unfold LinkRevSpec.Lookup at h
  cases ht : i.Tip with
  | none => simp [ht] at h
  | some tip =>
    simp only [ht] at h
    exact LinkRevSpec_loop_no_error want i tip i.index 0 res h

/-- C11, as stated, fails: on the Index of one record and revision 1, with a
manifest entry whose identifier does not parse, `LookupFile` returns the
parse error together with the resolved Record, not a nil Record. -/
theorem LookupFile_error_counterexample :
    LookupFile hexFormat oneIndex 1 manifestBadId () =
      some ((some ⟨0, mkRecord 0 [0x1a, 0x01], oneIndex⟩,
        some (Error.other "invalid identifier")), ()) :=
  rfl

/-- C11, amended: when `LookupFile` returns an error, the error comes from
the manifest stage, entered once, and the Record returned with it is the
Record resolved by outer link, not nil: a leaf whose outer link differs from
the requested revision. -/
theorem LookupFile_error_record {μ : Type} (f : IdFormat) (fileLog : Index) (chgId : Int)
    (g : μ → Except Error ManifestEnt × μ) (m m' : μ) (res : Option Rec) (err : Error)
    (h : LookupFile f fileLog chgId g m = some ((res, some err), m')) :
    ∃ r, res = some r ∧ LinkRevSpec.Lookup chgId fileLog = some (some r, none) ∧
      r.IsLeaf = true ∧ (r.record.Linkrev : Int) ≠ chgId ∧ m' = (g m).2 := by
  unfold LookupFile at h
  rcases hl : LinkRevSpec.Lookup chgId fileLog with _ | ⟨r, e⟩
  · simp [hl] at h
  · have he : e = none := LinkRevSpec_Lookup_no_error chgId fileLog (r, e) hl
    subst he
    cases r with
    | none => simp [hl] at h
    | some r =>
      simp only [hl] at h
      by_cases hlink : (r.record.Linkrev : Int) = chgId
      · simp [hlink] at h
      · by_cases hleaf : r.IsLeaf = true
        · simp only [hlink, if_false, hleaf, Bool.not_true, Bool.false_eq_true] at h
          refine ⟨r, ?_, rfl, hleaf, hlink, ?_⟩
          · rcases hg : g m with ⟨x, m1⟩
            rw [hg] at h
            cases x with
            | error e1 =>
              simp only [Option.some.injEq, Prod.mk.injEq] at h
              exact h.1.1.symm
            | ok ent =>
              simp only at h
              cases hid : ent.Id with
              | error e2 =>
                simp only [hid, Option.some.injEq, Prod.mk.injEq] at h
                exact h.1.1.symm
              | ok wantId =>
                simp only [hid] at h
                split_ifs at h <;>
                  simp only [Option.some.injEq, Prod.mk.injEq] at h <;> exact h.1.1.symm
          · rcases hg : g m with ⟨x, m1⟩
            rw [hg] at h
            cases x with
            | error e1 =>
              simp only [Option.some.injEq, Prod.mk.injEq] at h
              exact h.2.symm
            | ok ent =>
              simp only at h
              cases hid : ent.Id with
              | error e2 =>
                simp only [hid, Option.some.injEq, Prod.mk.injEq] at h
                exact h.2.symm
              | ok wantId =>
                simp only [hid] at h
                split_ifs at h <;>
                  simp only [Option.some.injEq, Prod.mk.injEq] at h <;> exact h.2.symm
        · simp [hlink, hleaf] at h

/-- C11, amended, on the Index of one record and revision 1, the manifest
lookup failing. -/
theorem LookupFile_error_record_witness :
    ∃ r, some (⟨0, mkRecord 0 [0x1a, 0x01], oneIndex⟩ : Rec) = some r ∧
      LinkRevSpec.Lookup 1 oneIndex = some (some r, none) ∧
      r.IsLeaf = true ∧ (r.record.Linkrev : Int) ≠ 1 ∧ () = (manifestAbsent ()).2 :=
  LookupFile_error_record hexFormat oneIndex 1 manifestAbsent () ()
    (some ⟨0, mkRecord 0 [0x1a, 0x01], oneIndex⟩)
    (Error.other "file does not exist in given revision") rfl

/-- What `FilePatch.Apply` leaves in the sinks, whatever its error: the bytes
the patch application emitted, appended to the writer in use. -/
theorem FilePatch_Apply_sinks {σ P : Type} (f : IdFormat) (e : Engine σ P)
    (p : FilePatch P) (k k' : Sinks) (err : Option Error)
    (h : p.Apply f e k = some (err, k')) :
    k' = Sinks.write
      (match k.w with
        | none => { k with fileBuf := [] }
        | some _ => k)
      (e.Apply p.baseData (if p.MetaLen > 0 then p.MetaLen else 0) p.patch).1 := by
  rcases ha : e.Apply p.baseData (if p.MetaLen > 0 then p.MetaLen else 0) p.patch with
    ⟨out, aerr⟩
  unfold FilePatch.Apply at h
  cases hp1 : p.rev.Parent with
  | none => simp [hp1] at h
  | some p1 =>
    cases hp2 : p.rev.Parent2 with
    | none => simp [hp1, hp2] at h
    | some p2 =>
      simp only [hp1, hp2, ha] at h
      by_cases hm : p.MetaLen > (p.baseData.length : Int)
      · simp [hm] at h
      · rw [if_neg hm] at h
        cases aerr with
        | some e1 =>
          simp only [Option.some.injEq, Prod.mk.injEq] at h
          exact h.2.symm
        | none =>
          simp only at h
          split_ifs at h <;>
            simp only [Option.some.injEq, Prod.mk.injEq] at h <;> exact h.2.symm

/-- C12, as stated, fails: building the revision that stores `metaContent`
into a writer returns the length error, yet the writer has received the byte
emitted before the check. -/
theorem FileBuilder_BuildWrite_counterexample :
    plainBuilder.BuildWrite hexFormat (editEngine [metaContent]) []
        ⟨0, metaRec, metaIndex⟩ () =
      some (some (Error.lengthMismatch 1 6), { fileBuf := [], w := some [98] }, ()) :=
  rfl

/-- C12, amended: when reconstruction returns an error, `Build` returns no
byte slice; with a writer (`BuildWrite`), an error of `PreparePatch` (data
retrieval, delta parse) leaves the writer as it was, while an error of
`FilePatch.Apply` (patch application, length or hash mismatch) comes after
the bytes `out` emitted by the patch application were delivered to the
writer. -/
theorem FileBuilder_Build_error_output {σ P : Type} (f : IdFormat) (e : Engine σ P)
    (p : FileBuilder σ) (w : Bytes) (r : Rec) (s : σ) :
    (∀ file err buf s', p.Build f e r s = some ((file, some err), buf, s') → file = none) ∧
    (∀ err k s', p.BuildWrite f e w r s = some (some err, k, s') →
      (p.PreparePatch e r s = some (.error err, s') ∧
          k = { fileBuf := p.fileBuf, w := some w }) ∨
      (∃ fp, p.PreparePatch e r s = some (.ok fp, s') ∧
          k = { fileBuf := p.fileBuf,
                w := some (w ++ (e.Apply fp.baseData
                  (if fp.MetaLen > 0 then fp.MetaLen else 0) fp.patch).1) })) := by
  constructor
  · intro file err buf s' h
    unfold FileBuilder.Build at h
    rcases hp : p.PreparePatch e r s with _ | ⟨res, s1⟩
    · simp [hp] at h
    · cases res with
      | error e1 =>
        simp only [hp, Option.some.injEq, Prod.mk.injEq] at h
        exact h.1.1.symm
      | ok fp =>
        simp only [hp] at h
        rcases ha : fp.Apply f e { fileBuf := p.fileBuf, w := none } with _ | ⟨aerr, k⟩
        · simp [ha] at h
        · cases aerr with
          | some e2 =>
            simp only [ha, Option.some.injEq, Prod.mk.injEq] at h
            exact h.1.1.symm
          | none => simp [ha] at h
  · intro err k s' h
    unfold FileBuilder.BuildWrite at h
    rcases hp : p.PreparePatch e r s with _ | ⟨res, s1⟩
    · simp [hp] at h
    · cases res with
      | error e1 =>
        simp only [hp, Option.some.injEq, Prod.mk.injEq] at h
        obtain ⟨h1, h2, h3⟩ := h
        left
        rw [← h3, ← h2, h1]
        exact ⟨rfl, rfl⟩
      | ok fp =>
        simp only [hp] at h
        rcases ha : fp.Apply f e { fileBuf := p.fileBuf, w := some w } with _ | ⟨aerr, k1⟩
        · simp [ha] at h
        · simp only [ha, Option.some.injEq, Prod.mk.injEq] at h
          obtain ⟨_, h2, h3⟩ := h
          right
          refine ⟨fp, by rw [← h3], ?_⟩
          rw [← h2, FilePatch_Apply_sinks f e fp _ k1 aerr ha]
          rfl

/-- C12, amended, on the revision that stores `metaContent`, built into an
empty writer: the length error comes from `FilePatch.Apply`, after the
emitted bytes reached the writer. -/
theorem FileBuilder_Build_error_output_witness :
    (plainBuilder.PreparePatch (editEngine [metaContent]) ⟨0, metaRec, metaIndex⟩ () =
        some (.error (Error.lengthMismatch 1 6), ()) ∧
      ({ fileBuf := [], w := some [98] } : Sinks) =
        { fileBuf := plainBuilder.fileBuf, w := some [] }) ∨
    (∃ fp, plainBuilder.PreparePatch (editEngine [metaContent]) ⟨0, metaRec, metaIndex⟩ () =
        some (.ok fp, ()) ∧
      ({ fileBuf := [], w := some [98] } : Sinks) =
        { fileBuf := plainBuilder.fileBuf,
          w := some ([] ++ ((editEngine [metaContent]).Apply fp.baseData
            (if fp.MetaLen > 0 then fp.MetaLen else 0) fp.patch).1) }) :=
  (FileBuilder_Build_error_output hexFormat (editEngine [metaContent]) plainBuilder []
    ⟨0, metaRec, metaIndex⟩ ()).2 (Error.lengthMismatch 1 6)
    { fileBuf := [], w := some [98] } () rfl

/-! ## Theorems: the metadata header -/

/-- What `bytesIndex` computes: -1 when `sep` occurs nowhere in `s`, else the
first position at which it occurs. -/
theorem bytesIndex_spec (sep : Bytes) :
    ∀ s : Bytes,
      (bytesIndex s sep = -1 ∧ ∀ k, sep.isPrefixOf (s.drop k) = false) ∨
      (∃ m : Nat, bytesIndex s sep = (m : Int) ∧ sep.isPrefixOf (s.drop m) = true ∧
        ∀ k, k < m → sep.isPrefixOf (s.drop k) = false) := by
  intro s
  induction s with
  | nil =>
    by_cases hsep : sep = []
    · right
      refine ⟨0, by simp [bytesIndex, hsep], by simp [hsep], fun k hk => by omega⟩
    · left
      refine ⟨by simp [bytesIndex, hsep], fun k => ?_⟩
      cases sep with
      | nil => exact absurd rfl hsep
      | cons a t => simp [List.isPrefixOf]
  | cons b t ih =>
    by_cases h0 : sep.isPrefixOf (b :: t) = true
    · right
      exact ⟨0, by simp [bytesIndex, h0], by simpa using h0, fun k hk => by omega⟩
    · have h0' : sep.isPrefixOf (b :: t) = false := Bool.eq_false_iff.mpr h0
      rcases ih with ⟨hneg, hall⟩ | ⟨m, hm, hp, hmin⟩
      · left
        refine ⟨by simp [bytesIndex, h0', hneg], fun k => ?_⟩
        cases k with
        | zero => simpa using h0'
        | succ n => simpa using hall n
      · right
        refine ⟨m + 1, ?_, by simpa using hp, fun k hk => ?_⟩
        · have hne : ¬ ((m : Int) = -1) := by omega
          simp only [bytesIndex, h0', Bool.false_eq_true, if_false, hm, hne]
          push_cast
          rfl
        · cases k with
          | zero => simpa using h0'
          | succ n => simpa using hmin n (by omega)

/-- The marker `0x01 '\n'` is a prefix of a list exactly when it is its first
two elements. -/
theorem marker_isPrefixOf (l : Bytes) :
    List.isPrefixOf [1, 10] l = true ↔ l.get? 0 = some 1 ∧ l.get? 1 = some 10 := by
  cases l with
  | nil => simp [List.isPrefixOf]
  | cons a t =>
    cases t with
    | nil => simp [List.isPrefixOf]
    | cons b u =>
      simp only [List.isPrefixOf, Bool.and_eq_true, beq_iff_eq, List.get?_cons_zero,
        Option.some.injEq, List.get?_cons_succ]
      constructor
      · rintro ⟨h1, h2, _⟩
        exact ⟨h1.symm, h2.symm⟩
      · rintro ⟨h1, h2⟩
        exact ⟨h1.symm, h2.symm, trivial⟩

/-- The marker occurs at position `k` of `d.drop 2` exactly when it occurs at
position `k + 2` of `d`. -/
theorem marker_at_drop (d : Bytes) (k : Nat) :
    List.isPrefixOf [1, 10] ((d.drop 2).drop k) = true ↔
      d.get? (k + 2) = some 1 ∧ d.get? (k + 2 + 1) = some 10 := by
  rw [marker_isPrefixOf, List.drop_drop]
  simp only [List.get?_eq_getElem?, List.getElem?_drop]
  have e1 : 2 + k + 0 = k + 2 := by omega
  have e2 : 2 + k + 1 = k + 2 + 1 := by omega
  rw [e1, e2]

/-- C16: the header length `PreparePatch` computes for a base snapshot `d`
lies between 0 and `len(d)`; it is positive exactly when the snapshot's record
is the requested one, starts a branch, `len(d) > 2`, `d` begins with the
marker `0x01 '\n'` and the marker occurs again at a position `q ≥ 2`; it is then
`q + 2` for the first such `q`, so the two bytes before it are the closing
marker. -/
theorem PreparePatch_skip_spec (r rsav : Rec) (d : Bytes) :
    0 ≤ PreparePatch.skip r rsav d ∧ PreparePatch.skip r rsav d ≤ (d.length : Int) ∧
    (0 < PreparePatch.skip r rsav d ↔
      (r = rsav ∧ r.IsStartOfBranch = true ∧ d.length > 2 ∧
        d.get? 0 = some 1 ∧ d.get? 1 = some 10 ∧
        ∃ q, 2 ≤ q ∧ d.get? q = some 1 ∧ d.get? (q + 1) = some 10)) ∧
    (0 < PreparePatch.skip r rsav d →
      ∃ q : Nat, 2 ≤ q ∧ PreparePatch.skip r rsav d = (q : Int) + 2 ∧
        d.get? q = some 1 ∧ d.get? (q + 1) = some 10 ∧
        ∀ q', 2 ≤ q' → q' < q → ¬ (d.get? q' = some 1 ∧ d.get? (q' + 1) = some 10)) := by
  by_cases hg : r = rsav ∧ r.IsStartOfBranch = true ∧ d.length > 2
  · by_cases hmk : d.get? 0 = some 1 ∧ d.get? 1 = some 10
    · rcases bytesIndex_spec [1, 10] (d.drop 2) with ⟨hneg, hall⟩ | ⟨m, hm, hp, hmin⟩
      · have hskip : PreparePatch.skip r rsav d = 0 := by
          unfold PreparePatch.skip
          rw [if_pos hg, if_pos hmk]
          simp only [hneg, ne_eq, not_true_eq_false, if_false]
        rw [hskip]
        refine ⟨le_refl _, by omega, ?_, fun h => absurd h (by omega)⟩
        constructor
        · intro h
          omega
        · rintro ⟨_, _, _, _, _, q, hq, h1, h2⟩
          exfalso
          have hno := hall (q - 2)
          have hyes := (marker_at_drop d (q - 2)).mpr (by
            have e : q - 2 + 2 = q := by omega
            rw [e]
            exact ⟨h1, h2⟩)
          rw [hyes] at hno
          exact Bool.noConfusion hno
      · have hne : ¬ ((m : Int) = -1) := by omega
        have hskip : PreparePatch.skip r rsav d = (m : Int) + 4 := by
          unfold PreparePatch.skip
          rw [if_pos hg, if_pos hmk]
          simp only [hm, ne_eq, hne, not_false_eq_true, if_true]
        obtain ⟨h1, h2⟩ := (marker_at_drop d m).mp hp
        have hlen : m + 2 + 1 < d.length := by
          by_contra hge
          have : d.get? (m + 2 + 1) = none := List.get?_eq_none.mpr (by omega)
          rw [this] at h2
          exact Option.noConfusion h2
        have hfirst : ∀ q', 2 ≤ q' → q' < m + 2 →
            ¬ (d.get? q' = some 1 ∧ d.get? (q' + 1) = some 10) := by
          intro q' hq1 hq2 hq
          have hno := hmin (q' - 2) (by omega)
          have hyes := (marker_at_drop d (q' - 2)).mpr (by
            have e : q' - 2 + 2 = q' := by omega
            rw [e]
            exact hq)
          rw [hyes] at hno
          exact Bool.noConfusion hno
        rw [hskip]
        refine ⟨by omega, by omega, ?_, fun _ => ?_⟩
        · constructor
          · intro _
            exact ⟨hg.1, hg.2.1, hg.2.2, hmk.1, hmk.2, m + 2, by omega, h1, h2⟩
          · intro _
            omega
        · exact ⟨m + 2, by omega, by push_cast; omega, h1, h2, hfirst⟩
    · have hskip : PreparePatch.skip r rsav d = 0 := by
        unfold PreparePatch.skip
        rw [if_pos hg, if_neg hmk]
      rw [hskip]
      refine ⟨le_refl _, by omega, ?_, fun h => absurd h (by omega)⟩
      constructor
      · intro h
        omega
      · rintro ⟨_, _, _, h1, h2, _⟩
        exact absurd ⟨h1, h2⟩ hmk
  · have hskip : PreparePatch.skip r rsav d = 0 := by
      simp only [PreparePatch.skip, hg, if_false]
    rw [hskip]
    refine ⟨le_refl _, by omega, ?_, fun h => absurd h (by omega)⟩
    constructor
    · intro h
      omega
    · rintro ⟨h1, h2, h3, _⟩
      exact absurd ⟨h1, h2, h3⟩ hg

/-- C16 on the snapshot `metaContent`: the marker occurs again at position 3,
the header length is 5. -/
theorem PreparePatch_skip_spec_witness :
    ∃ q : Nat, 2 ≤ q ∧
      PreparePatch.skip ⟨0, metaRec, metaIndex⟩ ⟨0, metaRec, metaIndex⟩ metaContent =
        (q : Int) + 2 ∧
      metaContent.get? q = some 1 ∧ metaContent.get? (q + 1) = some 10 ∧
      ∀ q', 2 ≤ q' → q' < q →
        ¬ (metaContent.get? q' = some 1 ∧ metaContent.get? (q' + 1) = some 10) :=
  (PreparePatch_skip_spec ⟨0, metaRec, metaIndex⟩ ⟨0, metaRec, metaIndex⟩ metaContent).2.2.2
    (by decide)

/-- Below the requested record the loop of `PreparePatch` skips no header:
a FilePatch it returns has `MetaLen = 0`, and is for the requested record. -/
theorem PreparePatch_loop_below {σ P : Type} (e : Engine σ P) (dc : DataCache σ)
    (rsav : Rec) :
    ∀ (fuel : Nat) (r : Rec) (acc : Option P) (s s' : σ) (fp : FilePatch P),
      r.i < rsav.i → PreparePatch.loop e dc rsav fuel r acc s = some (.ok fp, s') →
      fp.MetaLen = 0 ∧ fp.rev = rsav := by
  intro fuel
  induction fuel with
  | zero =>
    intro r acc s s' fp _ h
    simp [PreparePatch.loop] at h
  | succ n ih =>
    intro r acc s s' fp hlt h
    rw [PreparePatch.loop] at h
    rcases hd : PreparePatch.data e dc r s with ⟨res, s1⟩
    rw [hd] at h
    cases res with
    | error err => simp at h
    | ok d =>
      simp only at h
      split_ifs at h with hbase
      · simp only [Option.some.injEq, Prod.mk.injEq, Except.ok.injEq] at h
        rw [← h.1]
        refine ⟨PreparePatch_skip_of_ne r rsav d ?_, rfl⟩
        intro hr
        rw [hr] at hlt
        omega
      · cases hparse : e.Parse d with
        | error err1 => simp [hparse] at h
        | ok hunks =>
          simp only [hparse] at h
          cases hprev : r.Prev with
          | none => simp [hprev] at h
          | some r' =>
            simp only [hprev] at h
            have hi := (Index.Record_fields r.Index (r.i - 1) r' hprev).1
            exact ih r' _ s1 s' fp (by omega) h

/-- C19: for a FilePatch returned by `PreparePatch` for the record `r`, a
positive `MetaLen` implies that no patch was accumulated, that `r` itself is
the base record and that the base data is the data of `r`; and for a delta
record `r`, `MetaLen` is 0. -/
theorem PreparePatch_MetaLen_target {σ P : Type} (e : Engine σ P) (p : FileBuilder σ)
    (r : Rec) (s s' : σ) (fp : FilePatch P)
    (h : p.PreparePatch e r s = some (.ok fp, s')) :
    (0 < fp.MetaLen →
      fp.patch = none ∧ r.IsBase = true ∧
        (PreparePatch.data e p.cache r s).1 = .ok fp.baseData) ∧
    (r.IsBase = false → fp.MetaLen = 0) ∧ fp.rev = r := by
  unfold FileBuilder.PreparePatch at h
  rw [PreparePatch.loop] at h
  rcases hd : PreparePatch.data e p.cache r s with ⟨res, s1⟩
  rw [hd] at h
  cases res with
  | error err => simp at h
  | ok d =>
    simp only at h
    split_ifs at h with hbase
    · simp only [Option.some.injEq, Prod.mk.injEq, Except.ok.injEq] at h
      rw [← h.1]
      exact ⟨fun _ => ⟨rfl, hbase, rfl⟩, fun hb => by rw [hbase] at hb; exact Bool.noConfusion hb,
        rfl⟩
    · cases hparse : e.Parse d with
      | error err1 => simp [hparse] at h
      | ok hunks =>
        simp only [hparse] at h
        cases hprev : r.Prev with
        | none => simp [hprev] at h
        | some r' =>
          simp only [hprev] at h
          have hi := (Index.Record_fields r.Index (r.i - 1) r' hprev).1
          obtain ⟨h0, hrev⟩ := PreparePatch_loop_below e p.cache r _ r' _ s1 s' fp (by omega) h
          exact ⟨fun hpos => by omega, fun _ => h0, hrev⟩

/-- C19 on the revision storing `metaContent`, whose patch has a header of 5
bytes, and on revision 2 of the chain, a delta record. -/
theorem PreparePatch_MetaLen_target_witness :
    (metaPatch.patch = none ∧ Rec.IsBase ⟨0, metaRec, metaIndex⟩ = true ∧
      (PreparePatch.data (editEngine [metaContent]) plainBuilder.cache
        ⟨0, metaRec, metaIndex⟩ ()).1 = .ok metaPatch.baseData) ∧
    ∃ fp s', plainBuilder.PreparePatch (editEngine chainRaw) ⟨2, chainRec2, chainIndex⟩ () =
        some (.ok fp, s') ∧ fp.MetaLen = 0 :=
  ⟨(PreparePatch_MetaLen_target (editEngine [metaContent]) plainBuilder
      ⟨0, metaRec, metaIndex⟩ () () metaPatch rfl).1 (by decide),
   ⟨_, _, rfl, (PreparePatch_MetaLen_target (editEngine chainRaw) plainBuilder
      ⟨2, chainRec2, chainIndex⟩ () () _ rfl).2.1 rfl⟩⟩

/-! ## Theorems: termination and the order of cache and reader calls -/

/-- One data step with logging: the same result and state as without, and
the log grows by the events of one iteration. -/
theorem PreparePatch_data_traced {σ P : Type} (e : Engine σ P) (dc : DataCache σ) (r : Rec)
    (s : σ) (l : List Event) :
    ∃ blk, IsBlock r.i blk ∧
      PreparePatch.data e.traced dc.traced r (s, l) =
        ((PreparePatch.data e dc r s).1, ((PreparePatch.data e dc r s).2, l ++ blk)) := by
  unfold PreparePatch.data
  rcases hg : dc.Get r.i s with ⟨found, s1⟩
  cases found with
  | some d =>
    refine ⟨[Event.get r.i (some d)], Or.inl ⟨d, rfl⟩, ?_⟩
    simp only [DataCache.traced, hg]
  | none =>
    rcases hf : e.GetData r s1 with ⟨res, s2⟩
    cases res with
    | error err =>
      refine ⟨[Event.get r.i none, Event.fetch r.i (.error err)],
        Or.inr (Or.inr ⟨err, rfl⟩), ?_⟩
      simp only [DataCache.traced, Engine.traced, hg, hf, List.append_assoc,
        List.singleton_append]
    | ok d =>
      refine ⟨[Event.get r.i none, Event.fetch r.i (.ok d), Event.store r.i d],
        Or.inr (Or.inl ⟨d, rfl⟩), ?_⟩
      simp only [DataCache.traced, Engine.traced, hg, hf, List.append_assoc,
        List.singleton_append, List.cons_append, List.nil_append]

/-- The loop of `PreparePatch` with logging returns what it returns without,
and the log grows by the events of at most `fuel` iterations, for the indexes
`r.i, r.i - 1, ...`. -/
theorem PreparePatch_loop_traced {σ P : Type} (e : Engine σ P) (dc : DataCache σ)
    (rsav : Rec) :
    ∀ (fuel : Nat) (r : Rec) (acc : Option P) (s : σ) (l : List Event),
      (PreparePatch.loop e dc rsav fuel r acc s = none →
        PreparePatch.loop e.traced dc.traced rsav fuel r acc (s, l) = none) ∧
      (∀ out s', PreparePatch.loop e dc rsav fuel r acc s = some (out, s') →
        ∃ n tr, n ≤ fuel ∧ IsTrace (descending r.i n) tr ∧
          PreparePatch.loop e.traced dc.traced rsav fuel r acc (s, l) =
            some (out, (s', l ++ tr))) := by
  intro fuel
  induction fuel with
  | zero =>
    intro r acc s l
    exact ⟨fun _ => rfl, fun out s' h => by simp [PreparePatch.loop] at h⟩
  | succ m ih =>
    intro r acc s l
    obtain ⟨blk, hblk, hdt⟩ := PreparePatch_data_traced e dc r s l
    have hone : IsTrace (descending r.i 1) blk :=
      ⟨blk, [], (List.append_nil blk).symm, hblk, rfl⟩
    rw [PreparePatch.loop, PreparePatch.loop, hdt]
    rcases PreparePatch.data e dc r s with ⟨res, s1⟩
    cases res with
    | error err =>
      refine ⟨fun h => by simp at h, fun out s' h => ?_⟩
      simp only [Option.some.injEq, Prod.mk.injEq] at h
      refine ⟨1, blk, by omega, hone, ?_⟩
      simp only [← h.1, ← h.2]
    | ok d =>
      simp only
      by_cases hbase : r.IsBase = true
      · simp only [hbase, if_true]
        refine ⟨fun h => by simp at h, fun out s' h => ?_⟩
        simp only [Option.some.injEq, Prod.mk.injEq] at h
        refine ⟨1, blk, by omega, hone, ?_⟩
        simp only [← h.1, ← h.2]
      · simp only [hbase, Bool.false_eq_true, if_false]
        have hparse : e.traced.Parse d = e.Parse d := rfl
        rw [hparse]
        cases e.Parse d with
        | error err1 =>
          refine ⟨fun h => by simp at h, fun out s' h => ?_⟩
          simp only [Option.some.injEq, Prod.mk.injEq] at h
          refine ⟨1, blk, by omega, hone, ?_⟩
          simp only [← h.1, ← h.2]
        | ok hunks =>
          simp only
          cases hprev : r.Prev with
          | none => exact ⟨fun _ => rfl, fun out s' h => by simp at h⟩
          | some r' =>
            simp only
            have hi : r'.i = r.i - 1 := (Index.Record_fields r.Index (r.i - 1) r' hprev).1
            have hjoin : ∀ a : Option P,
                (match a with
                  | none => hunks
                  | some _ => e.traced.JoinPatches hunks a) =
                (match a with
                  | none => hunks
                  | some _ => e.JoinPatches hunks a) := fun a => rfl
            rw [hjoin]
            obtain ⟨ih1, ih2⟩ := ih r' (match acc with
              | none => hunks
              | some _ => e.JoinPatches hunks acc) s1 (l ++ blk)
            refine ⟨ih1, fun out s' h => ?_⟩
            obtain ⟨n, tr, hn, htr, hrun⟩ := ih2 out s' h
            refine ⟨n + 1, blk ++ tr, by omega, ⟨blk, tr, rfl, hblk, ?_⟩, ?_⟩
            · rw [← hi]
              exact htr
            · rw [hrun, List.append_assoc]

/-- More fuel does not change what the loop of `PreparePatch` returns. -/
theorem PreparePatch_loop_mono {σ P : Type} (e : Engine σ P) (dc : DataCache σ) (rsav : Rec) :
    ∀ (fuel1 fuel2 : Nat) (r : Rec) (acc : Option P) (s : σ)
      (x : Except Error (FilePatch P) × σ), fuel1 ≤ fuel2 →
      PreparePatch.loop e dc rsav fuel1 r acc s = some x →
      PreparePatch.loop e dc rsav fuel2 r acc s = some x := by
  intro fuel1
  induction fuel1 with
  | zero =>
    intro fuel2 r acc s x _ h
    simp [PreparePatch.loop] at h
  | succ a ih =>
    intro fuel2 r acc s x hle h
    obtain ⟨b, rfl⟩ : ∃ n, fuel2 = n + 1 := ⟨fuel2 - 1, by omega⟩
    rw [PreparePatch.loop] at h ⊢
    rcases hd : PreparePatch.data e dc r s with ⟨res, s1⟩
    rw [hd] at h
    cases res with
    | error err => exact h
    | ok d =>
      simp only at h ⊢
      split_ifs at h ⊢
      · exact h
      · cases hparse : e.Parse d with
        | error err1 =>
          simp only [hparse] at h ⊢
          exact h
        | ok hunks =>
          simp only [hparse] at h ⊢
          cases hprev : r.Prev with
          | none => simp [hprev] at h
          | some r' =>
            simp only [hprev] at h ⊢
            exact ih b r' _ s1 x (by omega) h

/-- A record whose chain reaches a base after `k` steps has local index at
least `k`. -/
theorem Rec.reachesBase_le : ∀ (k : Nat) (r : Rec), r.reachesBase k = true → k ≤ r.i.toNat := by
  intro k
  induction k with
  | zero => intro r _; omega
  | succ n ih =>
    intro r h
    simp only [Rec.reachesBase, Bool.and_eq_true] at h
    cases hprev : r.Prev with
    | none => simp [hprev] at h
    | some r' =>
      simp only [hprev] at h
      have := ih r' h.2
      obtain ⟨hi, _, h0, _⟩ := Index.Record_fields r.Index (r.i - 1) r' hprev
      omega

/-- From a record whose chain reaches a base after `k` steps, the loop of
`PreparePatch` returns within `k + 1` iterations. -/
theorem PreparePatch_loop_reaches {σ P : Type} (e : Engine σ P) (dc : DataCache σ)
    (rsav : Rec) :
    ∀ (k : Nat) (r : Rec) (acc : Option P) (s : σ), r.reachesBase k = true →
      ∃ x, PreparePatch.loop e dc rsav (k + 1) r acc s = some x := by
  intro k
  induction k with
  | zero =>
    intro r acc s h
    simp only [Rec.reachesBase] at h
    rw [PreparePatch.loop]
    rcases PreparePatch.data e dc r s with ⟨res, s1⟩
    cases res with
    | error err => exact ⟨_, rfl⟩
    | ok d =>
      simp only [h, if_true]
      exact ⟨_, rfl⟩
  | succ n ih =>
    intro r acc s h
    simp only [Rec.reachesBase, Bool.and_eq_true, Bool.not_eq_true'] at h
    cases hprev : r.Prev with
    | none => simp [hprev] at h
    | some r' =>
      simp only [hprev] at h
      rw [PreparePatch.loop]
      rcases PreparePatch.data e dc r s with ⟨res, s1⟩
      cases res with
      | error err => exact ⟨_, rfl⟩
      | ok d =>
        simp only [h.1, Bool.false_eq_true, if_false]
        cases e.Parse d with
        | error err1 => exact ⟨_, rfl⟩
        | ok hunks =>
          simp only [hprev]
          exact ih r' _ s1 h.2

/-- C17: from a target record whose predecessor chain reaches a base after
`k` steps, `PreparePatch` returns, a FilePatch or an error, within `k + 1`
iterations of its loop: the run with logging returns the same, and its log
consists of the events of `n ≤ k + 1` iterations, for the records at the local
indexes `r.i, r.i - 1, ...`, those of the chain. -/
theorem PreparePatch_terminates {σ P : Type} (e : Engine σ P) (p : FileBuilder σ) (r : Rec)
    (k : Nat) (s : σ) (h : r.reachesBase k = true) :
    ∃ out s' n tr, n ≤ k + 1 ∧ IsTrace (descending r.i n) tr ∧
      p.traced.PreparePatch e.traced r (s, []) = some (out, (s', tr)) ∧
      p.PreparePatch e r s = some (out, s') ∧
      PreparePatch.loop e p.cache r (k + 1) r none s = some (out, s') := by
  obtain ⟨⟨out, s'⟩, hx⟩ := PreparePatch_loop_reaches e p.cache r k r none s h
  obtain ⟨n, tr, hn, htr, hrun⟩ := (PreparePatch_loop_traced e p.cache r (k + 1) r none s []).2
    out s' hx
  have hk : k + 1 ≤ r.i.toNat + 1 := by
    have := Rec.reachesBase_le k r h
    omega
  refine ⟨out, s', n, tr, hn, htr, ?_, ?_, hx⟩
  · unfold FileBuilder.PreparePatch
    have hc : p.traced.cache = p.cache.traced := rfl
    rw [hc]
    have := PreparePatch_loop_mono e.traced p.cache.traced r (k + 1) (r.i.toNat + 1) r none
      (s, []) _ hk hrun
    simpa using this
  · unfold FileBuilder.PreparePatch
    exact PreparePatch_loop_mono e p.cache r (k + 1) (r.i.toNat + 1) r none s _ hk hx

/-- C17 on revision 2 of the chain of three revisions, whose chain reaches
the snapshot after 2 steps. -/
theorem PreparePatch_terminates_witness :
    ∃ out s' n tr, n ≤ 2 + 1 ∧ IsTrace (descending 2 n) tr ∧
      plainBuilder.traced.PreparePatch (editEngine chainRaw).traced
        ⟨2, chainRec2, chainIndex⟩ ((), []) = some (out, (s', tr)) ∧
      plainBuilder.PreparePatch (editEngine chainRaw) ⟨2, chainRec2, chainIndex⟩ () =
        some (out, s') ∧
      PreparePatch.loop (editEngine chainRaw) plainBuilder.cache ⟨2, chainRec2, chainIndex⟩
        (2 + 1) ⟨2, chainRec2, chainIndex⟩ none () = some (out, s') :=
  PreparePatch_terminates (editEngine chainRaw) plainBuilder ⟨2, chainRec2, chainIndex⟩ 2 ()
    (by decide)

/-- The data step gives the same result with a coherent cache as with no
cache, and keeps the state invariant on both sides. -/
theorem PreparePatch_data_transparent {σ P : Type} (e : Engine σ P) (dc : DataCache σ)
    (Inv : σ → Prop) (raw : Rec → Except Error Bytes) (idx : Index)
    (hfetch : ∀ s r, r.Index = idx → Inv s →
      (e.GetData r s).1 = raw r ∧ Inv (e.GetData r s).2)
    (hget : ∀ s r, r.Index = idx → Inv s →
      ((dc.Get r.i s).1 = none ∨ ∃ d, (dc.Get r.i s).1 = some d ∧ raw r = .ok d) ∧
        Inv (dc.Get r.i s).2)
    (hstore : ∀ s r d, r.Index = idx → Inv s → raw r = .ok d → Inv (dc.Store r.i d s))
    (r : Rec) (s1 s2 : σ) (hr : r.Index = idx) (h1 : Inv s1) (h2 : Inv s2) :
    (PreparePatch.data e dc r s1).1 = (PreparePatch.data e noCache r s2).1 ∧
      Inv (PreparePatch.data e dc r s1).2 ∧ Inv (PreparePatch.data e noCache r s2).2 := by
  obtain ⟨hf2, hi2⟩ := hfetch s2 r hr h2
  have hno : PreparePatch.data e noCache r s2 =
      (match raw r with
        | .error err => .error (Error.getData r.i err)
        | .ok d => .ok d, (e.GetData r s2).2) := by
    unfold PreparePatch.data
    simp only [noCache]
    rcases hg : e.GetData r s2 with ⟨res, s3⟩
    rw [hg] at hf2
    simp only at hf2
    rw [← hf2]
    cases res <;> rfl
  rw [hno]
  obtain ⟨hg1, hig⟩ := hget s1 r hr h1
  unfold PreparePatch.data
  rcases hg : dc.Get r.i s1 with ⟨found, s3⟩
  rw [hg] at hg1 hig
  simp only at hg1 hig
  rcases hg1 with hnone | ⟨d, hsome, hraw⟩
  · subst hnone
    obtain ⟨hf1, hi1⟩ := hfetch s3 r hr hig
    rcases hgd : e.GetData r s3 with ⟨res, s4⟩
    rw [hgd] at hf1 hi1
    simp only at hf1 hi1
    simp only [hgd]
    rw [← hf1]
    cases res with
    | error err => exact ⟨rfl, hi1, hi2⟩
    | ok d => exact ⟨rfl, hstore s4 r d hr hi1 hf1.symm, hi2⟩
  · subst hsome
    rw [hraw]
    exact ⟨rfl, hig, hi2⟩

/-- The loop of `PreparePatch` returns the same FilePatch or error with a
coherent cache as with no cache. -/
theorem PreparePatch_loop_transparent {σ P : Type} (e : Engine σ P) (dc : DataCache σ)
    (Inv : σ → Prop) (raw : Rec → Except Error Bytes) (idx : Index)
    (hfetch : ∀ s r, r.Index = idx → Inv s →
      (e.GetData r s).1 = raw r ∧ Inv (e.GetData r s).2)
    (hget : ∀ s r, r.Index = idx → Inv s →
      ((dc.Get r.i s).1 = none ∨ ∃ d, (dc.Get r.i s).1 = some d ∧ raw r = .ok d) ∧
        Inv (dc.Get r.i s).2)
    (hstore : ∀ s r d, r.Index = idx → Inv s → raw r = .ok d → Inv (dc.Store r.i d s))
    (rsav : Rec) :
    ∀ (fuel : Nat) (r : Rec) (acc : Option P) (s1 s2 : σ), r.Index = idx → Inv s1 → Inv s2 →
      (PreparePatch.loop e dc rsav fuel r acc s1).map Prod.fst =
        (PreparePatch.loop e noCache rsav fuel r acc s2).map Prod.fst := by
  intro fuel
  induction fuel with
  | zero => intro r acc s1 s2 _ _ _; rfl
  | succ n ih =>
    intro r acc s1 s2 hr h1 h2
    obtain ⟨hd, hi1, hi2⟩ :=
      PreparePatch_data_transparent e dc Inv raw idx hfetch hget hstore r s1 s2 hr h1 h2
    rw [PreparePatch.loop, PreparePatch.loop]
    rcases hd1 : PreparePatch.data e dc r s1 with ⟨res1, t1⟩
    rcases hd2 : PreparePatch.data e noCache r s2 with ⟨res2, t2⟩
    rw [hd1, hd2] at hd
    rw [hd1] at hi1
    rw [hd2] at hi2
    simp only at hd hi1 hi2
    subst hd
    cases res1 with
    | error err => rfl
    | ok d =>
      simp only
      split_ifs
      · rfl
      · cases e.Parse d with
        | error err1 => rfl
        | ok hunks =>
          simp only
          cases hprev : r.Prev with
          | none => rfl
          | some r' =>
            simp only
            have hidx : r'.Index = idx := by
              rw [(Index.Record_fields r.Index (r.i - 1) r' hprev).2.1]
              exact hr
            exact ih r' _ t1 t2 hidx hi1 hi2

/-- One data step with logging: the same result and state as without, and
the log grows by the events of that step, as cache and reader answer. -/
theorem PreparePatch_data_step {σ P : Type} (e : Engine σ P) (dc : DataCache σ) (r : Rec)
    (s : σ) (l : List Event) :
    ∃ blk, IsStep e dc r s blk (PreparePatch.data e dc r s).2 ∧
      PreparePatch.data e.traced dc.traced r (s, l) =
        ((PreparePatch.data e dc r s).1, ((PreparePatch.data e dc r s).2, l ++ blk)) := by
  unfold PreparePatch.data IsStep
  rcases hg : dc.Get r.i s with ⟨found, s1⟩
  cases found with
  | some d =>
    refine ⟨[Event.get r.i (some d)], ⟨rfl, rfl⟩, ?_⟩
    simp only [DataCache.traced, hg]
  | none =>
    rcases hf : e.GetData r s1 with ⟨res, s2⟩
    cases res with
    | error err =>
      refine ⟨[Event.get r.i none, Event.fetch r.i (.error err)], ?_, ?_⟩
      · simp only [hf, and_self]
      · simp only [DataCache.traced, Engine.traced, hg, hf, List.append_assoc,
          List.singleton_append]
    | ok d =>
      refine ⟨[Event.get r.i none, Event.fetch r.i (.ok d), Event.store r.i d], ?_, ?_⟩
      · simp only [hf, and_self]
      · simp only [DataCache.traced, Engine.traced, hg, hf, List.append_assoc,
          List.singleton_append, List.cons_append, List.nil_append]

/-- When the loop of `PreparePatch` returns, the run with logging returns the
same, and its log and final state are those of `n` iterations, `1 ≤ n ≤ fuel`,
from the record and state it started with. -/
theorem PreparePatch_loop_run {σ P : Type} (e : Engine σ P) (dc : DataCache σ)
    (rsav : Rec) :
    ∀ (fuel : Nat) (r : Rec) (acc : Option P) (s : σ) (l : List Event)
      (out : Except Error (FilePatch P)) (s' : σ),
      PreparePatch.loop e dc rsav fuel r acc s = some (out, s') →
      ∃ n tr, 1 ≤ n ∧ n ≤ fuel ∧ IsRun e dc n r s tr s' ∧
        PreparePatch.loop e.traced dc.traced rsav fuel r acc (s, l) =
          some (out, (s', l ++ tr)) := by
  intro fuel
  induction fuel with
  | zero =>
    intro r acc s l out s' h
    simp [PreparePatch.loop] at h
  | succ m ih =>
    intro r acc s l out s' h
    obtain ⟨blk, hblk, hdt⟩ := PreparePatch_data_step e dc r s l
    rw [PreparePatch.loop] at h
    rw [PreparePatch.loop, hdt]
    rcases hd : PreparePatch.data e dc r s with ⟨res, s1⟩
    rw [hd] at h hblk
    simp only at hblk
    have hone : ∀ t, t = s1 → IsRun e dc 1 r s blk t := by
      intro t ht
      exact ⟨blk, s1, [], (List.append_nil blk).symm, hblk, Or.inl ⟨rfl, rfl, ht⟩⟩
    cases res with
    | error err =>
      simp only [Option.some.injEq, Prod.mk.injEq] at h
      refine ⟨1, blk, le_refl _, by omega, hone s' h.2.symm, ?_⟩
      simp only [← h.1, ← h.2]
    | ok d =>
      simp only at h ⊢
      by_cases hbase : r.IsBase = true
      · simp only [hbase, if_true, Option.some.injEq, Prod.mk.injEq] at h ⊢
        refine ⟨1, blk, le_refl _, by omega, hone s' h.2.symm, ?_⟩
        simp only [← h.1, ← h.2, and_self]
      · simp only [hbase, Bool.false_eq_true, if_false] at h ⊢
        have hparse : e.traced.Parse d = e.Parse d := rfl
        rw [hparse]
        cases hp : e.Parse d with
        | error err1 =>
          simp only [hp, Option.some.injEq, Prod.mk.injEq] at h
          refine ⟨1, blk, le_refl _, by omega, hone s' h.2.symm, ?_⟩
          simp only [← h.1, ← h.2]
        | ok hunks =>
          simp only [hp] at h
          simp only
          cases hprev : r.Prev with
          | none => simp [hprev] at h
          | some r' =>
            simp only [hprev] at h
            simp only
            obtain ⟨n, tr, hn1, hn2, hrun, htraced⟩ := ih r' _ s1 (l ++ blk) out s' h
            refine ⟨n + 1, blk ++ tr, by omega, by omega,
              ⟨blk, s1, tr, rfl, hblk, Or.inr ⟨by omega, r', hprev, hrun⟩⟩, ?_⟩
            rw [← List.append_assoc]
            exact htraced

/-- C18: the default cache reports absent for every index, whatever was
stored, and keeps no state; whenever `PreparePatch` returns, its run with
logging returns the same and the log is that of `n ≥ 1` iterations from the
target: in each, a `Get` under the record's local index comes first, and only
when the cache answers absent there the reader is called for that record and,
when it succeeds, its data stored under the same index; and with a cache whose
bytes are those the reader would return (`raw`, in every state satisfying
`Inv`), `PreparePatch` returns the same FilePatch or error as with the default
cache. -/
theorem PreparePatch_cache_transparent {σ P : Type} (e : Engine σ P) (p : FileBuilder σ)
    (Inv : σ → Prop) (raw : Rec → Except Error Bytes) (r : Rec) (s : σ) (hs : Inv s)
    (hfetch : ∀ s r', r'.Index = r.Index → Inv s →
      (e.GetData r' s).1 = raw r' ∧ Inv (e.GetData r' s).2)
    (hget : ∀ s r', r'.Index = r.Index → Inv s →
      ((p.cache.Get r'.i s).1 = none ∨
          ∃ d, (p.cache.Get r'.i s).1 = some d ∧ raw r' = .ok d) ∧
        Inv (p.cache.Get r'.i s).2)
    (hstore : ∀ s r' d, r'.Index = r.Index → Inv s → raw r' = .ok d →
      Inv (p.cache.Store r'.i d s)) :
    (∀ (t : σ) (i j : Int) (d : Bytes),
      ((noCache : DataCache σ).Get i ((noCache : DataCache σ).Store j d t)).1 = none ∧
        (noCache : DataCache σ).Store j d t = t ∧ ((noCache : DataCache σ).Get i t).2 = t) ∧
    (∀ out s', p.PreparePatch e r s = some (out, s') →
      ∃ n tr, 1 ≤ n ∧ n ≤ r.i.toNat + 1 ∧ IsRun e p.cache n r s tr s' ∧
        p.traced.PreparePatch e.traced r (s, []) = some (out, (s', tr))) ∧
    (p.PreparePatch e r s).map Prod.fst =
      (({ p with dataCache := none } : FileBuilder σ).PreparePatch e r s).map Prod.fst := by
  refine ⟨fun t i j d => ⟨rfl, rfl, rfl⟩, ?_, ?_⟩
  · intro out s' h
    unfold FileBuilder.PreparePatch at h ⊢
    have hc : p.traced.cache = p.cache.traced := rfl
    rw [hc]
    obtain ⟨n, tr, h1, h2, hrun, htraced⟩ :=
      PreparePatch_loop_run e p.cache r (r.i.toNat + 1) r none s [] out s' h
    exact ⟨n, tr, h1, h2, hrun, by simpa using htraced⟩
  · unfold FileBuilder.PreparePatch
    have hc : ({ p with dataCache := none } : FileBuilder σ).cache = noCache := rfl
    rw [hc]
    exact PreparePatch_loop_transparent e p.cache Inv raw r.Index hfetch hget hstore r
      (r.i.toNat + 1) r none s s rfl hs hs

/-- The list cache holds, under each index, the raw data of that revision of
the chain. -/
theorem listCache_coherent (s : List (Int × Bytes)) (i : Int) (d : Bytes)
    (hs : ∀ j x, s.lookup j = some x → chainRaw.get? j.toNat = some x)
    (hd : chainRaw.get? i.toNat = some d) :
    ∀ j x, ((i, d) :: s).lookup j = some x → chainRaw.get? j.toNat = some x := by
  intro j x h
  rw [List.lookup_cons] at h
  by_cases hji : j = i
  · subst hji
    simp only [beq_self_eq_true, Option.some.injEq] at h
    rw [← h]
    exact hd
  · have : (j == i) = false := by simpa using hji
    rw [this] at h
    exact hs j x h

/-- C18 on revision 2 of the chain, with a list cache that already holds the
snapshot of revision 0: the run takes 3 iterations, reading and storing the
two deltas and finding the snapshot in the cache, and the result is that of a
builder without cache. -/
theorem PreparePatch_cache_transparent_witness :
    (∃ n, 1 ≤ n ∧ n ≤ 3 ∧
      IsRun (cachedEngine chainRaw) cachedBuilder.cache n ⟨2, chainRec2, chainIndex⟩
        [(0, [97, 98])]
        [Event.get 2 none, Event.fetch 2 (.ok [0, 1, 1, 120]), Event.store 2 [0, 1, 1, 120],
         Event.get 1 none, Event.fetch 1 (.ok [2, 0, 1, 99]), Event.store 1 [2, 0, 1, 99],
         Event.get 0 (some [97, 98])]
        [(1, [2, 0, 1, 99]), (2, [0, 1, 1, 120]), (0, [97, 98])]) ∧
    (cachedBuilder.PreparePatch (cachedEngine chainRaw) ⟨2, chainRec2, chainIndex⟩
        [(0, [97, 98])]).map Prod.fst =
      (({ cachedBuilder with dataCache := none } : FileBuilder (List (Int × Bytes))).PreparePatch
        (cachedEngine chainRaw) ⟨2, chainRec2, chainIndex⟩ [(0, [97, 98])]).map Prod.fst := by
  have h := PreparePatch_cache_transparent (cachedEngine chainRaw) cachedBuilder
    (fun s => ∀ j x, s.lookup j = some x → chainRaw.get? j.toNat = some x)
    (fun r => ((editEngine chainRaw).GetData r ()).1)
    ⟨2, chainRec2, chainIndex⟩ [(0, [97, 98])]
    (by
      intro j x h
      rw [List.lookup_cons] at h
      by_cases hj : j = 0
      · subst hj
        simp only [beq_self_eq_true, Option.some.injEq] at h
        rw [← h]
        rfl
      · have : (j == 0) = false := by simpa using hj
        rw [this] at h
        simp at h)
    (fun s r' _ hs => ⟨rfl, hs⟩)
    (by
      intro s r' _ hs
      refine ⟨?_, hs⟩
      cases hl : s.lookup r'.i with
      | none => exact Or.inl hl
      | some d =>
        refine Or.inr ⟨d, hl, ?_⟩
        have hd := hs r'.i d hl
        show (match chainRaw.get? r'.i.toNat with
          | some d => Except.ok d
          | none => Except.error (Error.other "read error")) = Except.ok d
        rw [hd])
    (by
      intro s r' d _ hs hraw
      apply listCache_coherent s r'.i d hs
      have hraw' : (match chainRaw.get? r'.i.toNat with
          | some d => Except.ok d
          | none => Except.error (Error.other "read error")) = Except.ok d := hraw
      cases hg : chainRaw.get? r'.i.toNat with
      | none =>
        rw [hg] at hraw'
        exact Except.noConfusion hraw'
      | some x =>
        rw [hg] at hraw'
        rw [Except.ok.inj hraw'])
  refine ⟨?_, h.2.2⟩
  obtain ⟨n, tr, h1, h2, hrun, htr⟩ := h.2.1 _
    [(1, [2, 0, 1, 99]), (2, [0, 1, 1, 120]), (0, [97, 98])] rfl
  have hexp : cachedBuilder.traced.PreparePatch (cachedEngine chainRaw).traced
      ⟨2, chainRec2, chainIndex⟩ ([(0, [97, 98])], []) =
      some (_, ([(1, [2, 0, 1, 99]), (2, [0, 1, 1, 120]), (0, [97, 98])],
        [Event.get 2 none, Event.fetch 2 (.ok [0, 1, 1, 120]), Event.store 2 [0, 1, 1, 120],
         Event.get 1 none, Event.fetch 1 (.ok [2, 0, 1, 99]), Event.store 1 [2, 0, 1, 99],
         Event.get 0 (some [97, 98])])) := rfl
  rw [hexp] at htr
  simp only [Option.some.injEq, Prod.mk.injEq] at htr
  rw [htr.2.2]
  exact ⟨n, h1, h2, hrun⟩

/-! ## Theorems: the composed patch -/

/-- In a delta chain the data `PreparePatch` obtains for the record at `j` is
`raw j`, and the state invariant is kept. -/
theorem PreparePatch_data_of_patchChain {σ P : Type} {e : Engine σ P} {dc : DataCache σ}
    {Inv : σ → Prop} {idx : Index} {b k : Nat} {raw : Nat → Bytes} {delta : Nat → Option P}
    (hc : PatchChain e dc Inv idx b k raw delta) (j : Nat) (hb : b ≤ j) (hk : j ≤ b + k)
    (r : Rec) (s : σ) (hr : idx.Record (j : Int) = some r) (hs : Inv s) :
    ∃ s', PreparePatch.data e dc r s = (.ok (raw j), s') ∧ Inv s' := by
  have hi : r.i = (j : Int) := (Index.Record_fields idx j r hr).1
  obtain ⟨hget, hinv1⟩ := hc.cached s j hb hk hs
  unfold PreparePatch.data
  rw [hi]
  rcases hg : dc.Get (j : Int) s with ⟨d, s1⟩
  rw [hg] at hget hinv1
  rcases hget with hnone | hsome
  · simp only at hnone
    subst hnone
    obtain ⟨hf, hinv2⟩ := hc.fetched s1 j r hb hk hinv1 hr
    rcases hfd : e.GetData r s1 with ⟨res, s2⟩
    rw [hfd] at hf hinv2
    simp only at hf
    subst hf
    exact ⟨dc.Store (j : Int) (raw j) s2, by simp only [hfd], hc.stored s2 j hb hk hinv2⟩
  · simp only at hsome
    subst hsome
    exact ⟨s1, rfl, hinv1⟩

/-- The deltas of a chain of `m + 1` steps are those of `m` steps and the
newest. -/
theorem chainDeltas_succ {P : Type} (delta : Nat → Option P) (b m : Nat) :
    chainDeltas delta b (m + 1) = chainDeltas delta b m ++ [delta (b + 1 + m)] := by
  simp [chainDeltas, List.range_succ]

/-- In a delta chain the loop of `PreparePatch`, at the record `m` steps
above the base with the accumulated patch `acc`, returns the base data and
the patch accumulated over the deltas `delta (b + m), ..., delta (b + 1)`, taken
in that order. -/
theorem PreparePatch_loop_of_patchChain {σ P : Type} {e : Engine σ P} {dc : DataCache σ}
    {Inv : σ → Prop} {idx : Index} {b k : Nat} {raw : Nat → Bytes} {delta : Nat → Option P}
    (hc : PatchChain e dc Inv idx b k raw delta) (rsav : Rec) :
    ∀ (m fuel : Nat) (r : Rec) (acc : Option P) (s : σ), m ≤ k →
      idx.Record ((b + m : Nat) : Int) = some r → m < fuel → Inv s →
      ∃ r0 s', idx.Record (b : Int) = some r0 ∧
        PreparePatch.loop e dc rsav fuel r acc s =
          some (.ok { rev := rsav, baseData := raw b,
                      patch := List.foldl (PreparePatch.joinStep e) acc
                        (chainDeltas delta b m).reverse,
                      MetaLen := PreparePatch.skip r0 rsav (raw b) }, s') ∧
        Inv s' := by
  intro m
  induction m with
  | zero =>
    intro fuel r acc s _ hr hfuel hs
    obtain ⟨fuel', rfl⟩ : ∃ n, fuel = n + 1 := ⟨fuel - 1, by omega⟩
    obtain ⟨s', hd, hs'⟩ := PreparePatch_data_of_patchChain hc b (le_refl _) (by omega) r s hr hs
    have hbase : r.IsBase = true := hc.base r hr
    refine ⟨r, s', hr, ?_, hs'⟩
    rw [PreparePatch.loop, hd]
    simp only [hbase, if_true]
    rfl
  | succ m ih =>
    intro fuel r acc s hm hr hfuel hs
    obtain ⟨fuel', rfl⟩ : ∃ n, fuel = n + 1 := ⟨fuel - 1, by omega⟩
    obtain ⟨s', hd, hs'⟩ :=
      PreparePatch_data_of_patchChain hc (b + (m + 1)) (by omega) (by omega) r s hr hs
    obtain ⟨hi, hidx, _, hlt⟩ := Index.Record_fields idx ((b + (m + 1) : Nat) : Int) r hr
    have hbase : r.IsBase = false := hc.inner (b + (m + 1)) r (by omega) (by omega) hr
    have hparse := hc.parse (b + (m + 1)) (by omega) (by omega)
    have hprev : r.Prev = idx.Record ((b + m : Nat) : Int) := by
      unfold Rec.Prev
      rw [hi, hidx]
      congr 1
      push_cast
      omega
    obtain ⟨r', hr'⟩ : ∃ r', idx.Record ((b + m : Nat) : Int) = some r' := by
      rw [← Option.isSome_iff_exists, Index.Record_isSome_iff]
      omega
    obtain ⟨r0, s'', h0, hloop, hs''⟩ :=
      ih fuel' r' (PreparePatch.joinStep e acc (delta (b + (m + 1)))) s' (by omega) hr'
        (by omega) hs'
    refine ⟨r0, s'', h0, ?_, hs''⟩
    rw [PreparePatch.loop, hd]
    simp only [hbase, Bool.false_eq_true, if_false, hparse, hprev, hr']
    have e1 : b + 1 + m = b + (m + 1) := by omega
    rw [chainDeltas_succ, List.reverse_append, List.reverse_singleton, List.singleton_append,
      List.foldl_cons, e1]
    exact hloop

/-- Accumulating the deltas from the newest to the oldest gives their
right-nested composition, provided that joining a delta with a nil newer
composition gives that delta: the loop keeps the delta there, without calling
`JoinPatches`. -/
theorem foldl_joinStep_eq_composeRight {σ P : Type} (e : Engine σ P) :
    ∀ l : List (Option P),
      (∀ t q, l.get? t = some q → t + 1 < l.length →
        composeRight e (l.drop (t + 1)) = none → e.JoinPatches q none = q) →
      List.foldl (PreparePatch.joinStep e) none l.reverse = composeRight e l := by
  intro l
  induction l with
  | nil => intro _; rfl
  | cons p rest ih =>
    intro h
    rw [List.reverse_cons, List.foldl_append]
    have hrest : List.foldl (PreparePatch.joinStep e) none rest.reverse =
        composeRight e rest := by
      apply ih
      intro t q hq ht hnone
      exact h (t + 1) q (by simpa using hq) (by simp only [List.length_cons]; omega)
        (by simpa using hnone)
    rw [hrest]
    cases rest with
    | nil => rfl
    | cons q tail =>
      simp only [List.foldl_cons, List.foldl_nil, PreparePatch.joinStep]
      cases hcr : composeRight e (q :: tail) with
      | none =>
        have := h 0 p rfl (by simp only [List.length_cons]; omega) (by simpa using hcr)
        simp only [composeRight, hcr, this]
      | some x => simp only [composeRight, hcr]

/-- The delta at position `t` of a chain is `delta (b + 1 + t)`. -/
theorem chainDeltas_get {P : Type} (delta : Nat → Option P) (b k t : Nat) (q : Option P)
    (h : (chainDeltas delta b k).get? t = some q) : t < k ∧ q = delta (b + 1 + t) := by
  have hlt : t < k := by
    by_contra hge
    have : (chainDeltas delta b k).get? t = none :=
      List.get?_eq_none.mpr (by simp [chainDeltas]; omega)
    rw [this] at h
    exact Option.noConfusion h
  refine ⟨hlt, ?_⟩
  simp only [chainDeltas, List.get?_eq_getElem?, List.getElem?_map,
    List.getElem?_range hlt, Option.map_some', Option.some.injEq] at h
  exact h.symm

/-- The deltas of a chain of `k + 1` steps are the oldest and those of the
chain above it. -/
theorem chainDeltas_cons {P : Type} (delta : Nat → Option P) (b k : Nat) :
    chainDeltas delta b (k + 1) = delta (b + 1) :: chainDeltas delta (b + 1) k := by
  simp only [chainDeltas, List.range_succ_eq_map, List.map_cons, List.map_map, add_zero,
    List.cons.injEq, true_and]
  apply List.map_congr_left
  intro t _
  simp only [Function.comp_apply]
  congr 1
  omega

/-- A round-trip chain is a delta chain with its base at local index 0. -/
theorem RoundTripChain.toPatchChain {σ P : Type} {f : IdFormat} {e : Engine σ P}
    {dc : DataCache σ} {Inv : σ → Prop} {idx : Index} {content raw : Nat → Bytes}
    {delta : Nat → Option P} (hc : RoundTripChain f e dc Inv idx content raw delta)
    (k : Nat) (hk : k < idx.index.length) : PatchChain e dc Inv idx 0 k raw delta where
  base := fun r hr => (hc.snapshot 0 r hr).mpr rfl
  inner := by
    intro j r h0 _ hr
    cases hb : r.IsBase with
    | false => rfl
    | true =>
      have := (hc.snapshot j r hr).mp hb
      omega
  parse := fun j h0 hj => hc.parse j h0 (by omega)
  cached := fun s j _ _ hs => hc.cached s j hs
  fetched := fun s j r _ _ hs hr => hc.fetched s j r hs hr
  stored := fun s j _ _ hs => hc.stored s j hs

/-- C15: for a target record `k` steps above the base of a delta chain,
with parsed deltas `p1, ..., pk`, `PreparePatch` returns a FilePatch for the
target whose base data is the base record's data and whose patch is the
right-nested composition of the deltas: absent for `k = 0`, `pk` for `k = 1`,
and for `k ≥ 2` `JoinPatches` of the oldest delta, as first operand, with the
composition of the newer ones, as second. `JoinPatches` is the patch
package's, taken as it is but for one property of the nil slice: joining a
delta with a nil composition of the newer deltas gives that delta, which is
what the loop keeps there. -/
theorem PreparePatch_composed {σ P : Type} (e : Engine σ P) (p : FileBuilder σ)
    (Inv : σ → Prop) (idx : Index) (b k : Nat) (raw : Nat → Bytes) (delta : Nat → Option P)
    (hc : PatchChain e p.cache Inv idx b k raw delta) (r : Rec) (s : σ)
    (hr : idx.Record ((b + k : Nat) : Int) = some r) (hs : Inv s)
    (hnil : ∀ t, t + 1 < k →
      composeRight e ((chainDeltas delta b k).drop (t + 1)) = none →
      e.JoinPatches (delta (b + 1 + t)) none = delta (b + 1 + t)) :
    ∃ r0 s', idx.Record (b : Int) = some r0 ∧
      p.PreparePatch e r s =
        some (.ok { rev := r, baseData := raw b,
                    patch := composeRight e (chainDeltas delta b k),
                    MetaLen := PreparePatch.skip r0 r (raw b) }, s') ∧
      (k = 0 → composeRight e (chainDeltas delta b k) = none) ∧
      (k = 1 → composeRight e (chainDeltas delta b k) = delta (b + 1)) ∧
      (2 ≤ k → composeRight e (chainDeltas delta b k) =
        e.JoinPatches (delta (b + 1)) (composeRight e ((chainDeltas delta b k).drop 1))) := by
  obtain ⟨hi, _, _, _⟩ := Index.Record_fields idx _ r hr
  obtain ⟨r0, s', h0, hloop, _⟩ :=
    PreparePatch_loop_of_patchChain hc r k (r.i.toNat + 1) r none s (le_refl _) hr
      (by rw [hi]; simp; omega) hs
  have hfold : List.foldl (PreparePatch.joinStep e) none (chainDeltas delta b k).reverse =
      composeRight e (chainDeltas delta b k) := by
    apply foldl_joinStep_eq_composeRight
    intro t q hq ht hnone
    obtain ⟨_, hq'⟩ := chainDeltas_get delta b k t q hq
    rw [hq']
    exact hnil t (by simpa [chainDeltas] using ht) hnone
  rw [hfold] at hloop
  refine ⟨r0, s', h0, ?_, ?_, ?_, ?_⟩
  · unfold FileBuilder.PreparePatch
    exact hloop
  · intro hk
    subst hk
    rfl
  · intro hk
    subst hk
    rfl
  · intro hk
    obtain ⟨m, rfl⟩ : ∃ m, k = m + 2 := ⟨k - 2, by omega⟩
    rw [chainDeltas_cons, chainDeltas_cons]
    rfl

/-- C15 on revision 2 of the chain of three revisions with the edit engine,
for which joining with a nil patch changes nothing: the patch is
`JoinPatches(p1, p2)`. -/
theorem PreparePatch_composed_witness :
    ∃ fp s', plainBuilder.PreparePatch (editEngine chainRaw) ⟨2, chainRec2, chainIndex⟩ () =
        some (.ok fp, s') ∧
      fp.baseData = [97, 98] ∧
      fp.patch = (editEngine chainRaw).JoinPatches (chainDelta 1) (chainDelta 2) := by
  obtain ⟨r0, s', _, hrun, _, _, _⟩ :=
    PreparePatch_composed (editEngine chainRaw) plainBuilder (fun _ => True) chainIndex 0 2
      (fun j => chainRaw.getD j []) chainDelta
      (chainIndex_roundTrip.toPatchChain 2 (by decide)) ⟨2, chainRec2, chainIndex⟩ () rfl trivial
      (by
        intro t _ _
        cases chainDelta (0 + 1 + t) <;> rfl)
  exact ⟨_, s', hrun, rfl, rfl⟩

end Hgo
